import Mathlib

/-!
Verification of the red-black-tree container core, the bounded fixpoint
combinator, and the backward-chaining lemma index of this repository.

The tree operations (`Rbnode.ins`, `Rbnode.insert`, `Rbnode.find_core`,
`Rbtree.find`, `Rbtree.to_list`, `Rbtree.all`, `Rbtree.any`,
`Rbtree.subset`) are transcribed from the compiled module
`src/boot/init/data/rbtree/basic.cpp`: nodes are a three-way tagged value
(tag 0 = leaf, tag 1 = red node, tag 2 = black node) with fields
(left, key, value, right), and an `Rbtree` instantiates the value type
with `Unit`.  The rebalancing helpers (`balance1`, `balance2`,
`get_color`, `mk_insert_result`) are only declared there (their bodies
live in the rbmap module, which is not part of this source tree) and are
modelled from the specification, as marked on each of them.

`bfix` is transcribed from `src/boot/init/fix.cpp`, and the backward
lemma index from `src/library/tactic/backward/backward_lemmas.cpp`.
-/

/-- Node colors of the red-black tree. -/
inductive Color where
  | red : Color
  | black : Color
deriving DecidableEq, Repr

/-- A red-black tree node, from `src/boot/init/data/rbtree/basic.cpp`:
constructor tag 0 is the leaf, tag 1 a red node and tag 2 a black node,
each node holding (left subtree, key, value, right subtree). -/
inductive Rbnode (α : Type u) (β : Type v) where
  | leaf : Rbnode α β
  | red_node (l : Rbnode α β) (k : α) (v : β) (r : Rbnode α β) : Rbnode α β
  | black_node (l : Rbnode α β) (k : α) (v : β) (r : Rbnode α β) : Rbnode α β
deriving DecidableEq, Repr

/-- Modelled from the spec: the root color of a node (missing from this
source tree, only declared as `l_rbnode_get__color___main___rarg`).
A red node is red, a leaf or black node is black. -/
def Rbnode.get_color : Rbnode α β → Color
  | .red_node _ _ _ _ => Color.red
  | _ => Color.black

/-- Modelled from the spec: the left-insertion rebalancing rotation
(`balance1`, body missing from this source tree).  The seven arguments
are the four fields of the freshly re-inserted left subtree, the parent
key and value, and the untouched right sibling; the standard red-black
fix-up recolors the rotated children black and the new top node red. -/
def Rbnode.balance1 : Rbnode α β → α → β → Rbnode α β → α → β → Rbnode α β → Rbnode α β
  | .red_node l x vx r₁, y, vy, r₂, k, vk, t =>
      .red_node (.black_node l x vx r₁) y vy (.black_node r₂ k vk t)
  | l₁, y, vy, .red_node l₂ x vx r₂, k, vk, t =>
      .red_node (.black_node l₁ y vy l₂) x vx (.black_node r₂ k vk t)
  | l, y, vy, r, k, vk, t => .black_node (.red_node l y vy r) k vk t

/-- Modelled from the spec: destructures the re-inserted left subtree and
dispatches to `balance1` (body missing from this source tree; the leaf
case is unreachable from `ins`). -/
def Rbnode.balance1_node : Rbnode α β → α → β → Rbnode α β → Rbnode α β
  | .red_node l x vx r, y, vy, t => Rbnode.balance1 l x vx r y vy t
  | .black_node l x vx r, y, vy, t => Rbnode.balance1 l x vx r y vy t
  | .leaf, _, _, t => t

/-- Modelled from the spec: the mirror rotation for right-spine
insertions (`balance2`, body missing from this source tree).  Here the
seventh argument is the untouched left sibling. -/
def Rbnode.balance2 : Rbnode α β → α → β → Rbnode α β → α → β → Rbnode α β → Rbnode α β
  | .red_node l x vx r₁, y, vy, r₂, k, vk, t =>
      .red_node (.black_node t k vk l) x vx (.black_node r₁ y vy r₂)
  | l₁, y, vy, .red_node l₂ x vx r₂, k, vk, t =>
      .red_node (.black_node t k vk l₁) y vy (.black_node l₂ x vx r₂)
  | l, y, vy, r, k, vk, t => .black_node t k vk (.red_node l y vy r)

/-- Modelled from the spec: destructures the re-inserted right subtree
and dispatches to `balance2`. -/
def Rbnode.balance2_node : Rbnode α β → α → β → Rbnode α β → Rbnode α β
  | .red_node l x vx r, y, vy, t => Rbnode.balance2 l x vx r y vy t
  | .black_node l x vx r, y, vy, t => Rbnode.balance2 l x vx r y vy t
  | .leaf, _, _, t => t

/-- Recursive insertion, transcribed from
`l_rbnode_ins___main___at_rbtree_insert___spec__3___rarg`
(`src/boot/init/data/rbtree/basic.cpp`, lines 729-940): comparator-guided
descent; an equal key (neither direction of `lt` holds) replaces the key
and value in place; descending into a red child of a black parent goes
through `balance1_node` / `balance2_node`. -/
def Rbnode.ins (lt : α → α → Bool) : Rbnode α β → α → β → Rbnode α β
  | .leaf, k, v => .red_node .leaf k v .leaf
  | .red_node a ky vy b, k, v =>
      if lt k ky then .red_node (Rbnode.ins lt a k v) ky vy b
      else if lt ky k then .red_node a ky vy (Rbnode.ins lt b k v)
      else .red_node a k v b
  | .black_node a ky vy b, k, v =>
      if lt k ky then
        if a.get_color = Color.red then
          Rbnode.balance1_node (Rbnode.ins lt a k v) ky vy b
        else .black_node (Rbnode.ins lt a k v) ky vy b
      else if lt ky k then
        if b.get_color = Color.red then
          Rbnode.balance2_node (Rbnode.ins lt b k v) ky vy a
        else .black_node a ky vy (Rbnode.ins lt b k v)
      else .black_node a k v b

/-- Modelled from the spec: the root is forced black once the full
insertion completes (`mk_insert_result`, body missing from this source
tree, only declared as `l_rbnode_mk__insert__result___main___rarg`;
tracked together with the pre-insertion root color, which the forced
blackening does not need to inspect). -/
def Rbnode.mk_insert_result : Color → Rbnode α β → Rbnode α β
  | _, .red_node l k v r => .black_node l k v r
  | _, t => t

/-- Full insertion, transcribed from
`l_rbnode_insert___at_rbtree_insert___spec__2___rarg` (lines 951-961):
record the root color, run `ins`, then post-process with
`mk_insert_result`. -/
def Rbnode.insert (lt : α → α → Bool) (t : Rbnode α β) (k : α) (v : β) : Rbnode α β :=
  Rbnode.mk_insert_result (t.get_color) (Rbnode.ins lt t k v)

/-- Ordered search, transcribed from
`l_rbnode_find__core___main___at_rbtree_find___spec__2___rarg`
(lines 1324-1450): descend left when `lt x ky`, right when `lt ky x`,
otherwise return the stored key-value pair. -/
def Rbnode.find_core (lt : α → α → Bool) : Rbnode α β → α → Option (α × β)
  | .leaf, _ => none
  | .red_node a ky vy b, x =>
      if lt x ky then Rbnode.find_core lt a x
      else if lt ky x then Rbnode.find_core lt b x
      else some (ky, vy)
  | .black_node a ky vy b, x =>
      if lt x ky then Rbnode.find_core lt a x
      else if lt ky x then Rbnode.find_core lt b x
      else some (ky, vy)

/-- An `Rbtree` is a node tree with `Unit` values, as produced by
`l_mk__rbtree` / the `rbtree` definitions of the source. -/
abbrev Rbtree (α : Type u) := Rbnode α Unit

/-- Tree-level insertion, transcribed from `l_rbtree_insert___rarg`
(lines 990-998): insert the element with the boxed unit value. -/
def Rbtree.insert (lt : α → α → Bool) (t : Rbtree α) (k : α) : Rbtree α :=
  Rbnode.insert lt t k ()

/-- Tree-level find, transcribed from `l_rbtree_find___rarg`
(lines 1479-1514): run `find_core` and keep the first component (the
stored element) of the found pair. -/
def Rbtree.find (lt : α → α → Bool) (t : Rbtree α) (x : α) : Option α :=
  (Rbnode.find_core lt t x).map Prod.fst

/-- Accumulator pass of `to_list`, transcribed from
`l_rbnode_rev__fold___main___at_rbtree_to__list___spec__1___rarg`
(lines 550-578): reverse fold consing each key, so right subtree first,
then the node, then the left subtree. -/
def Rbtree.to_list_aux : Rbnode α β → List α → List α
  | .leaf, acc => acc
  | .red_node a k _ b, acc => Rbtree.to_list_aux a (k :: Rbtree.to_list_aux b acc)
  | .black_node a k _ b, acc => Rbtree.to_list_aux a (k :: Rbtree.to_list_aux b acc)

/-- Conversion to an ordered list, transcribed from
`l_rbtree_to__list___rarg` (lines 588-596): the reverse fold is started
on the empty list. -/
def Rbtree.to_list (t : Rbnode α β) : List α :=
  Rbtree.to_list_aux t []

/-- Universal predicate evaluation, transcribed from
`l_rbnode_all___main___at_rbtree_all___spec__1___rarg` (lines 2088-2196):
the node key is tested first, then the left subtree, then the right
subtree, stopping at the first failure. -/
def Rbtree.all (p : α → Bool) : Rbnode α β → Bool
  | .leaf => true
  | .red_node a k _ b => p k && (Rbtree.all p a && Rbtree.all p b)
  | .black_node a k _ b => p k && (Rbtree.all p a && Rbtree.all p b)

/-- Existential predicate evaluation, transcribed from
`l_rbnode_any___main___at_rbtree_any___spec__1___rarg`
(lines 2225-2333): the node key is tested first, then the left subtree,
then the right subtree, stopping at the first success. -/
def Rbtree.any (p : α → Bool) : Rbnode α β → Bool
  | .leaf => false
  | .red_node a k _ b => p k || (Rbtree.any p a || Rbtree.any p b)
  | .black_node a k _ b => p k || (Rbtree.any p a || Rbtree.any p b)

/-- Subset test, transcribed from `l_rbtree_subset___rarg`
(lines 2695-2702) and its `all` specialization (lines 2563-2684):
every element of `t₁` has to be found in `t₂`. -/
def Rbtree.subset (lt : α → α → Bool) (t₁ t₂ : Rbtree α) : Bool :=
  Rbtree.all (fun a => (Rbtree.find lt t₂ a).isSome) t₁

/-- A tree built from the empty tree by a sequence of key-value inserts,
the construction the specification's invariants quantify over. -/
def Rbnode.built (lt : α → α → Bool) (l : List (α × β)) : Rbnode α β :=
  l.foldl (fun s e => Rbnode.insert lt s e.1 e.2) .leaf

/-- A tree-level `Rbtree` built from the empty tree by a sequence of
inserts (`l_mk__rbtree` produces the leaf). -/
def Rbtree.built (lt : α → α → Bool) (l : List α) : Rbtree α :=
  l.foldl (fun s k => Rbtree.insert lt s k) .leaf

/-! ### Statement-side notions: in-order pairs, shapes, invariants -/

/-- The in-order list of key-value pairs of a node tree; the reference
order for the ordering claims (left subtree, node, right subtree). -/
def Rbnode.toListP : Rbnode α β → List (α × β)
  | .leaf => []
  | .red_node a k v b => Rbnode.toListP a ++ (k, v) :: Rbnode.toListP b
  | .black_node a k v b => Rbnode.toListP a ++ (k, v) :: Rbnode.toListP b

/-- The shape of a tree: colors, structure and keys, with the stored
values erased.  Two trees have identical shape differing at most in
values exactly when their `strip`s are equal. -/
def Rbnode.strip : Rbnode α β → Rbnode α Unit
  | .leaf => .leaf
  | .red_node a k _ b => .red_node (Rbnode.strip a) k () (Rbnode.strip b)
  | .black_node a k _ b => .black_node (Rbnode.strip a) k () (Rbnode.strip b)

/-- Number of (non-leaf) nodes of a tree. -/
def Rbnode.size : Rbnode α β → Nat
  | .leaf => 0
  | .red_node a _ _ b => Rbnode.size a + Rbnode.size b + 1
  | .black_node a _ _ b => Rbnode.size a + Rbnode.size b + 1

/-- The red-red invariant: no red node has a red child. -/
def Rbnode.noRedRed : Rbnode α β → Bool
  | .leaf => true
  | .red_node a _ _ b =>
      !(a.get_color = Color.red) && !(b.get_color = Color.red)
        && (Rbnode.noRedRed a && Rbnode.noRedRed b)
  | .black_node a _ _ b => Rbnode.noRedRed a && Rbnode.noRedRed b

/-- The number of black nodes on each root-to-leaf path, one list entry
per leaf position, left to right. -/
def Rbnode.pathBlackCounts : Rbnode α β → List Nat
  | .leaf => [0]
  | .red_node a _ _ b => Rbnode.pathBlackCounts a ++ Rbnode.pathBlackCounts b
  | .black_node a _ _ b =>
      (Rbnode.pathBlackCounts a ++ Rbnode.pathBlackCounts b).map (· + 1)

/-- The strict-weak-ordering contract on a boolean comparator:
irreflexive, transitive, and with transitive incomparability. -/
structure IsSWO (lt : α → α → Bool) : Prop where
  irrefl : ∀ a, lt a a = false
  trans : ∀ a b c, lt a b = true → lt b c = true → lt a c = true
  incomp_trans : ∀ a b c, lt a b = false → lt b a = false →
    lt b c = false → lt c b = false → lt a c = false ∧ lt c a = false

/-- Comparator-guided insertion into a list of key-value pairs: insert
in front of the first strictly greater key, replace the first equivalent
key, append if every key is smaller.  The in-order image of `ins` on a
sorted tree. -/
def linsert (lt : α → α → Bool) : List (α × β) → α → β → List (α × β)
  | [], k, v => [(k, v)]
  | e :: es, k, v =>
      if lt k e.1 then (k, v) :: e :: es
      else if lt e.1 k then e :: linsert lt es k v
      else (k, v) :: es

/-- Validity of a red-black tree: `RBInv t c n` states that `t` has root
color `c`, no red node with a red child, and exactly `n` black nodes on
every root-to-leaf path. -/
inductive RBInv : Rbnode α β → Color → Nat → Prop where
  | leaf : RBInv Rbnode.leaf Color.black 0
  | red {l : Rbnode α β} {k v r n} : RBInv l Color.black n → RBInv r Color.black n →
      RBInv (Rbnode.red_node l k v r) Color.red n
  | black {l : Rbnode α β} {k v r c₁ c₂ n} : RBInv l c₁ n → RBInv r c₂ n →
      RBInv (Rbnode.black_node l k v r) Color.black (n + 1)

/-! ### Instrumented evaluation order of `all` -/

/-- The keys to which `Rbtree.all` applies the predicate, in evaluation
order: the source (lines 2088-2196) tests the node key first, and only
if it holds descends into the left subtree and then the right one,
stopping at the first failure. -/
def Rbtree.allVisits (p : α → Bool) : Rbnode α β → List α
  | .leaf => []
  | .red_node a k _ b =>
      k :: (if p k then
        Rbtree.allVisits p a ++ (if Rbtree.all p a then Rbtree.allVisits p b else [])
      else [])
  | .black_node a k _ b =>
      k :: (if p k then
        Rbtree.allVisits p a ++ (if Rbtree.all p a then Rbtree.allVisits p b else [])
      else [])

/-- The visit sequence the specification describes for `all`: walk the
in-order element sequence and stop at (and include) the first failing
element, never visiting the remainder. -/
def inorderStopVisits (p : α → Bool) : List α → List α
  | [] => []
  | k :: ks => if p k then k :: inorderStopVisits p ks else [k]

/-! ### The bounded fixpoint combinator -/

/-- Bounded fixpoint combinator, transcribed from `l_bfix___main___rarg`
(`src/boot/init/fix.cpp`, lines 117-144): with fuel `0` the base
function is applied; otherwise the step function is applied to the
continuation with one unit of fuel less. -/
def bfix (base : α → β) (step : (α → β) → α → β) : Nat → α → β
  | 0, x => base x
  | n + 1, x => step (bfix base step n) x

/-! ### The backward-chaining lemma index

Transcribed from `src/library/tactic/backward/backward_lemmas.cpp`.
The kernel expression type, the attribute store and the priority queue
live outside this source tree; they are modelled from the spec as a
small term language with constants, free variables, applications and
pi binders, a priority lookup function, and buckets kept in descending
priority order with ties broken by insertion order. -/

/-- Modelled from the spec: the fragment of the term language the index
inspects, per the external elaboration interface (constants, local free
variables, applications, pi binders, and an opaque remainder standing
for every other expression kind). -/
inductive BExpr where
  | const (n : Nat) : BExpr
  | fvar (n : Nat) : BExpr
  | sort : BExpr
  | app (f a : BExpr) : BExpr
  | pi (dom body : BExpr) : BExpr
deriving DecidableEq, Repr

/-- Head of an application spine (`get_app_fn`). -/
def BExpr.get_app_fn : BExpr → BExpr
  | .app f _ => BExpr.get_app_fn f
  | e => e

/-- Transcribed from `get_backward_target` (lines 24-35): strip the pi
binders of the type, take the head of the conclusion's application
spine, and return it when it is a constant or a local free variable
(the elaborating `try_to_pi` loop is modelled structurally). -/
def get_backward_target : BExpr → Option BExpr
  | .pi _ b => get_backward_target b
  | e =>
      match e.get_app_fn with
      | .const n => some (.const n)
      | .fvar n => some (.fvar n)
      | _ => none

/-- Modelled from the spec: the system default priority constant
(`LEAN_DEFAULT_PRIORITY`, defined outside this source tree). -/
def default_priority : Nat := 1000

/-- A backward lemma, from `backward_lemma` (a `gexpr`): either a global
declaration known by name, or a local hypothesis carried as a free
variable identifier together with its inferred type. -/
inductive BackwardLemma where
  | global (n : Nat) : BackwardLemma
  | hyp (id : Nat) (ty : BExpr) : BackwardLemma
deriving DecidableEq, Repr

/-- Transcribed from `backward_lemma_prio_fn::operator()` (lines 52-59):
a universe-polymorphic (global) lemma uses its recorded attribute
priority when present, every other entry — in particular a local
hypothesis — gets the default priority. -/
def backward_lemma_prio_fn (prios : Nat → Option Nat) : BackwardLemma → Nat
  | .global n =>
      match prios n with
      | some p => p
      | none => default_priority
  | .hyp _ _ => default_priority

/-- Modelled from the spec: insertion into one priority-queue bucket,
descending priority, a new entry placed after existing entries of the
same priority (ties broken by insertion order). -/
def queue_insert (pf : BackwardLemma → Nat) :
    List BackwardLemma → BackwardLemma → List BackwardLemma
  | [], x => [x]
  | y :: ys, x => if pf y < pf x then x :: y :: ys else y :: queue_insert pf ys x

/-- Modelled from the spec: the head-indexed multimap underlying
`backward_lemma_index` (`head_map_prio`), as an association list from
head expressions to priority-ordered buckets. -/
abbrev BackwardIndex := List (BExpr × List BackwardLemma)

/-- Bucket lookup, per `backward_lemma_index::find` (lines 92-97): the
empty list when the head is absent, never an error. -/
def index_find (idx : BackwardIndex) (hd : BExpr) : List BackwardLemma :=
  match idx.find? (fun e => e.1 = hd) with
  | some e => e.2
  | none => []

/-- Bucket update used by construction and insertion. -/
def index_insert (pf : BackwardLemma → Nat) (idx : BackwardIndex)
    (hd : BExpr) (x : BackwardLemma) : BackwardIndex :=
  match idx with
  | [] => [(hd, [x])]
  | e :: es =>
      if e.1 = hd then (e.1, queue_insert pf e.2 x) :: es
      else e :: index_insert pf es hd x

/-- Bucket removal used by `erase`. -/
def index_erase (idx : BackwardIndex) (hd : BExpr) (x : BackwardLemma) :
    BackwardIndex :=
  match idx with
  | [] => []
  | e :: es =>
      if e.1 = hd then (e.1, e.2.erase x) :: es
      else e :: index_erase es hd x

/-- A declaration carrying the intro attribute: its name and its
elaborated type. -/
structure BDecl where
  name : Nat
  type : BExpr
deriving DecidableEq, Repr

/-- Index construction, transcribed from
`backward_lemma_index::backward_lemma_index` (lines 61-76): iterate over
the attribute instances from the last to the first; a declaration whose
backward target is a constant is indexed under it, any other
declaration is discarded with a diagnostic trace (second component) and
construction continues. -/
def backward_index_build (prios : Nat → Option Nat) (decls : List BDecl) :
    BackwardIndex × List Nat :=
  decls.reverse.foldl
    (fun acc d =>
      match get_backward_target d.type with
      | some (.const n) =>
          (index_insert (backward_lemma_prio_fn prios) acc.1 (.const n)
            (.global d.name), acc.2)
      | _ => (acc.1, acc.2 ++ [d.name]))
    ([], [])

/-- Local-hypothesis insertion, transcribed from
`backward_lemma_index::insert` (lines 78-83): when the inferred type has
a backward target (constant or local), index the hypothesis under it;
otherwise return the index unchanged, with no trace (second component
always empty). -/
def backward_index_insert (prios : Nat → Option Nat) (idx : BackwardIndex)
    (hid : Nat) (hty : BExpr) : BackwardIndex × List Nat :=
  match get_backward_target hty with
  | some tgt =>
      (index_insert (backward_lemma_prio_fn prios) idx tgt (.hyp hid hty), [])
  | none => (idx, [])

/-- Local-hypothesis removal, transcribed from
`backward_lemma_index::erase` (lines 85-90): same silent behaviour when
the head cannot be determined. -/
def backward_index_erase (idx : BackwardIndex) (hid : Nat) (hty : BExpr) :
    BackwardIndex × List Nat :=
  match get_backward_target hty with
  | some tgt => (index_erase idx tgt (.hyp hid hty), [])
  | none => (idx, [])

/-- Attribute registration check, transcribed from the `prio_attribute`
handler in `initialize_backward_lemmas` (lines 133-142): a hard error
unless the conclusion's head is a constant. -/
def check_intro_attr (ty : BExpr) : Except String Unit :=
  match get_backward_target ty with
  | some (.const _) => Except.ok ()
  | _ => Except.error
      "invalid intro attribute, head symbol of resulting type must be a constant"

/-! ### Strict-weak-order consequences -/

theorem IsSWO.asym {lt : α → α → Bool} (h : IsSWO lt) {a b : α}
    (hab : lt a b = true) : lt b a = false := by
  cases hba : lt b a with
  | false => rfl
  | true => have := h.trans a b a hab hba; rw [h.irrefl a] at this; simp at this

theorem IsSWO.congr_right {lt : α → α → Bool} (h : IsSWO lt) {a b c : α}
    (hab : lt a b = true) (h1 : lt b c = false) (h2 : lt c b = false) :
    lt a c = true := by
  cases hac : lt a c with
  | true => rfl
  | false =>
    have hca : lt c a = false := by
      cases hca : lt c a with
      | false => rfl
      | true => have := h.trans c a b hca hab; rw [h2] at this; simp at this
    have := (h.incomp_trans b c a h1 h2 hca hac).2
    rw [hab] at this; simp at this

theorem IsSWO.congr_left {lt : α → α → Bool} (h : IsSWO lt) {a b c : α}
    (hab : lt a b = false) (hba : lt b a = false) (hbc : lt b c = true) :
    lt a c = true := by
  cases hac : lt a c with
  | true => rfl
  | false =>
    have hca : lt c a = false := by
      cases hca : lt c a with
      | false => rfl
      | true => have := h.trans b c a hbc hca; rw [this] at hba; simp at hba
    have := (h.incomp_trans b a c hba hab hac hca).1
    rw [hbc] at this; simp at this

/-- The natural-number comparator used in the concrete scenarios. -/
def natLtB (a b : Nat) : Bool := decide (a < b)

theorem natLtB_swo : IsSWO natLtB := by
  refine ⟨?_, ?_, ?_⟩ <;> intros <;> simp_all [natLtB] <;> omega

/-! ### List-level insertion lemmas -/

theorem linsert_append_of_lt {lt : α → α → Bool} {k ky : α} {v : β}
    (hky : lt k ky = true) (vy : β) (l₁ l₂ : List (α × β)) :
    linsert lt (l₁ ++ (ky, vy) :: l₂) k v = linsert lt l₁ k v ++ (ky, vy) :: l₂ := by
  induction l₁ with
  | nil => simp [linsert, hky]
  | cons e es ih =>
    by_cases h1 : lt k e.1 = true
    · simp [linsert, h1]
    · by_cases h2 : lt e.1 k = true
      · simp only [List.cons_append, linsert, h1, h2]
        simp only [Bool.false_eq_true, if_false, if_true, List.append_eq]
        rw [ih]
        simp
      · simp [linsert, h1, h2]

theorem linsert_append_of_all_lt {lt : α → α → Bool} (h : IsSWO lt) {k : α} {v : β}
    {l₁ : List (α × β)} (hall : ∀ e ∈ l₁, lt e.1 k = true) (l₂ : List (α × β)) :
    linsert lt (l₁ ++ l₂) k v = l₁ ++ linsert lt l₂ k v := by
  induction l₁ with
  | nil => simp
  | cons e es ih =>
    have he : lt e.1 k = true := hall e (by simp)
    have hke : lt k e.1 = false := h.asym he
    simp only [List.cons_append, linsert, hke, he]
    simp only [Bool.false_eq_true, if_false, if_true, List.append_eq]
    rw [ih (fun x hx => hall x (by simp [hx]))]

theorem linsert_mem {lt : α → α → Bool} (l : List (α × β)) (k : α) (v : β) :
    (k, v) ∈ linsert lt l k v := by
  induction l with
  | nil => simp [linsert]
  | cons e es ih =>
    by_cases h1 : lt k e.1 = true
    · simp [linsert, h1]
    · by_cases h2 : lt e.1 k = true
      · simp [linsert, h1, h2, ih]
      · simp [linsert, h1, h2]

theorem linsert_subset {lt : α → α → Bool} {l : List (α × β)} {k : α} {v : β} :
    ∀ x ∈ linsert lt l k v, x ∈ l ∨ x = (k, v) := by
  induction l with
  | nil => simp [linsert]
  | cons e es ih =>
    intro x hx
    by_cases h1 : lt k e.1 = true
    · simp only [linsert, h1, if_true, List.mem_cons] at hx
      rcases hx with h | h | h <;> simp [h]
    · by_cases h2 : lt e.1 k = true
      · simp only [linsert, h1, h2, Bool.false_eq_true, if_false, if_true,
          List.mem_cons] at hx
        rcases hx with h | h
        · simp [h]
        · rcases ih x h with h' | h' <;> simp [h']
      · simp only [linsert, h1, h2, Bool.false_eq_true, if_false,
          List.mem_cons] at hx
        rcases hx with h | h <;> simp [h]

theorem linsert_twice {lt : α → α → Bool} (h : IsSWO lt) (l : List (α × β))
    (k : α) (v₁ v₂ : β) :
    linsert lt (linsert lt l k v₁) k v₂ = linsert lt l k v₂ := by
  induction l with
  | nil => simp [linsert, h.irrefl]
  | cons e es ih =>
    by_cases h1 : lt k e.1 = true
    · simp [linsert, h1, h.irrefl]
    · by_cases h2 : lt e.1 k = true
      · simp only [linsert, h1, h2, Bool.false_eq_true, if_false, if_true]
        rw [ih]
      · simp [linsert, h1, h2, h.irrefl]

/-- Key-wise comparison of two key-value pairs; the ordering relation of
the sortedness statements. -/
def keyLt (lt : α → α → Bool) (a b : α × β) : Prop := lt a.1 b.1 = true

theorem linsert_pairwise {lt : α → α → Bool} (h : IsSWO lt) {l : List (α × β)}
    (hs : l.Pairwise (keyLt lt)) (k : α) (v : β) :
    (linsert lt l k v).Pairwise (keyLt lt) := by
  induction l with
  | nil => simp [linsert, List.pairwise_cons]
  | cons e es ih =>
    rw [List.pairwise_cons] at hs
    obtain ⟨he, hes⟩ := hs
    by_cases h1 : lt k e.1 = true
    · simp only [linsert, h1, if_true]
      rw [List.pairwise_cons]
      refine ⟨?_, List.Pairwise.cons he hes⟩
      intro x hx
      rcases List.mem_cons.mp hx with rfl | hx'
      · exact h1
      · exact h.trans _ _ _ h1 (he x hx')
    · by_cases h2 : lt e.1 k = true
      · simp only [linsert, h1, h2, Bool.false_eq_true, if_false, if_true]
        rw [List.pairwise_cons]
        refine ⟨?_, ih hes⟩
        intro x hx
        rcases linsert_subset x hx with hx' | rfl
        · exact he x hx'
        · exact h2
      · simp only [linsert, h1, h2, Bool.false_eq_true, if_false]
        rw [List.pairwise_cons]
        refine ⟨?_, hes⟩
        intro x hx
        exact h.congr_left (Bool.eq_false_iff.mpr h1) (Bool.eq_false_iff.mpr h2) (he x hx)

/-! ### In-order lists of trees -/

theorem to_list_aux_eq (t : Rbnode α β) (acc : List α) :
    Rbtree.to_list_aux t acc = (Rbnode.toListP t).map Prod.fst ++ acc := by
  induction t generalizing acc with
  | leaf => simp [Rbtree.to_list_aux, Rbnode.toListP]
  | red_node a k v b iha ihb =>
    simp [Rbtree.to_list_aux, Rbnode.toListP, iha, ihb]
  | black_node a k v b iha ihb =>
    simp [Rbtree.to_list_aux, Rbnode.toListP, iha, ihb]

theorem to_list_eq (t : Rbnode α β) :
    Rbtree.to_list t = (Rbnode.toListP t).map Prod.fst := by
  simp [Rbtree.to_list, to_list_aux_eq]

theorem toListP_length (t : Rbnode α β) :
    (Rbnode.toListP t).length = t.size := by
  induction t <;> simp [Rbnode.toListP, Rbnode.size, *] <;> omega

theorem size_strip (t : Rbnode α β) : t.strip.size = t.size := by
  induction t <;> simp [Rbnode.strip, Rbnode.size, *]

theorem toListP_strip (t : Rbnode α β) :
    t.strip.toListP = t.toListP.map (fun e => (e.1, ())) := by
  induction t <;> simp [Rbnode.strip, Rbnode.toListP, *]

theorem ins_ne_leaf {lt : α → α → Bool} (t : Rbnode α β) (k : α) (v : β) :
    Rbnode.ins lt t k v ≠ Rbnode.leaf := by
  have hbal1 : ∀ (l : Rbnode α β) x vx r y vy s,
      Rbnode.balance1 l x vx r y vy s ≠ Rbnode.leaf := by
    intro l x vx r y vy s
    cases l <;> cases r <;> simp [Rbnode.balance1]
  have hbal2 : ∀ (l : Rbnode α β) x vx r y vy s,
      Rbnode.balance2 l x vx r y vy s ≠ Rbnode.leaf := by
    intro l x vx r y vy s
    cases l <;> cases r <;> simp [Rbnode.balance2]
  induction t with
  | leaf => simp [Rbnode.ins]
  | red_node a ky vy b iha ihb =>
    simp only [Rbnode.ins]
    split <;> try split
    all_goals simp
  | black_node a ky vy b iha ihb =>
    simp only [Rbnode.ins]
    split
    · split
      · rcases hx : Rbnode.ins lt a k v with _ | ⟨l, x, vx, r⟩ | ⟨l, x, vx, r⟩
        · exact absurd hx iha
        · simp [Rbnode.balance1_node, hbal1]
        · simp [Rbnode.balance1_node, hbal1]
      · simp
    · split
      · split
        · rcases hx : Rbnode.ins lt b k v with _ | ⟨l, x, vx, r⟩ | ⟨l, x, vx, r⟩
          · exact absurd hx ihb
          · simp [Rbnode.balance2_node, hbal2]
          · simp [Rbnode.balance2_node, hbal2]
        · simp
      · simp

theorem toListP_balance1_node {x : Rbnode α β} (hx : x ≠ Rbnode.leaf)
    (y : α) (vy : β) (s : Rbnode α β) :
    (Rbnode.balance1_node x y vy s).toListP = x.toListP ++ (y, vy) :: s.toListP := by
  cases x with
  | leaf => exact absurd rfl hx
  | red_node l kx vx r =>
    show (Rbnode.balance1 l kx vx r y vy s).toListP = _
    cases l <;> cases r <;>
      simp [Rbnode.balance1, Rbnode.toListP, List.append_assoc]
  | black_node l kx vx r =>
    show (Rbnode.balance1 l kx vx r y vy s).toListP = _
    cases l <;> cases r <;>
      simp [Rbnode.balance1, Rbnode.toListP, List.append_assoc]

theorem toListP_balance2_node {x : Rbnode α β} (hx : x ≠ Rbnode.leaf)
    (y : α) (vy : β) (s : Rbnode α β) :
    (Rbnode.balance2_node x y vy s).toListP = s.toListP ++ (y, vy) :: x.toListP := by
  cases x with
  | leaf => exact absurd rfl hx
  | red_node l kx vx r =>
    show (Rbnode.balance2 l kx vx r y vy s).toListP = _
    cases l <;> cases r <;>
      simp [Rbnode.balance2, Rbnode.toListP, List.append_assoc]
  | black_node l kx vx r =>
    show (Rbnode.balance2 l kx vx r y vy s).toListP = _
    cases l <;> cases r <;>
      simp [Rbnode.balance2, Rbnode.toListP, List.append_assoc]

theorem toListP_mk_insert_result (c : Color) (t : Rbnode α β) :
    (Rbnode.mk_insert_result c t).toListP = t.toListP := by
  cases t <;> simp [Rbnode.mk_insert_result, Rbnode.toListP]

theorem pairwise_node_decomp {lt : α → α → Bool} {la lb : List (α × β)} {ky : α} {vy : β}
    (hs : (la ++ (ky, vy) :: lb).Pairwise (keyLt lt)) :
    la.Pairwise (keyLt lt) ∧ lb.Pairwise (keyLt lt) ∧
      (∀ e ∈ la, lt e.1 ky = true) ∧ (∀ e ∈ lb, lt ky e.1 = true) := by
  rw [List.pairwise_append] at hs
  obtain ⟨ha, hcons, hmid⟩ := hs
  rw [List.pairwise_cons] at hcons
  exact ⟨ha, hcons.2, fun e he => hmid e he (ky, vy) (by simp),
    fun e he => hcons.1 e he⟩

theorem ins_toListP {lt : α → α → Bool} (h : IsSWO lt) (t : Rbnode α β)
    (hs : (Rbnode.toListP t).Pairwise (keyLt lt)) (k : α) (v : β) :
    (Rbnode.ins lt t k v).toListP = linsert lt t.toListP k v := by
  induction t with
  | leaf => simp [Rbnode.ins, Rbnode.toListP, linsert]
  | red_node a ky vy b iha ihb =>
    simp only [Rbnode.toListP] at hs ⊢
    obtain ⟨ha, hb, hla, hlb⟩ := pairwise_node_decomp hs
    simp only [Rbnode.ins]
    by_cases h1 : lt k ky = true
    · rw [if_pos h1]
      simp only [Rbnode.toListP]
      rw [iha ha, linsert_append_of_lt h1]
    · rw [if_neg (by simp [h1])]
      by_cases h2 : lt ky k = true
      · rw [if_pos h2]
        simp only [Rbnode.toListP]
        rw [ihb hb,
          linsert_append_of_all_lt h (fun e he => h.trans _ _ _ (hla e he) h2)]
        congr 1
        simp [linsert, h1, h2]
      · rw [if_neg (by simp [h2])]
        simp only [Rbnode.toListP]
        have hall : ∀ e ∈ a.toListP, lt e.1 k = true := fun e he =>
          h.congr_right (hla e he) (Bool.eq_false_iff.mpr h2) (Bool.eq_false_iff.mpr h1)
        rw [linsert_append_of_all_lt h hall]
        congr 1
        simp [linsert, h1, h2]
  | black_node a ky vy b iha ihb =>
    simp only [Rbnode.toListP] at hs ⊢
    obtain ⟨ha, hb, hla, hlb⟩ := pairwise_node_decomp hs
    simp only [Rbnode.ins]
    by_cases h1 : lt k ky = true
    · rw [if_pos h1]
      by_cases hc : a.get_color = Color.red
      · rw [if_pos hc, toListP_balance1_node (ins_ne_leaf a k v)]
        rw [iha ha, linsert_append_of_lt h1]
      · rw [if_neg hc]
        simp only [Rbnode.toListP]
        rw [iha ha, linsert_append_of_lt h1]
    · rw [if_neg (by simp [h1])]
      by_cases h2 : lt ky k = true
      · rw [if_pos h2]
        have hstep : linsert lt (a.toListP ++ (ky, vy) :: b.toListP) k v
            = a.toListP ++ (ky, vy) :: linsert lt b.toListP k v := by
          rw [linsert_append_of_all_lt h (fun e he => h.trans _ _ _ (hla e he) h2)]
          congr 1
          simp [linsert, h1, h2]
        by_cases hc : b.get_color = Color.red
        · rw [if_pos hc, toListP_balance2_node (ins_ne_leaf b k v)]
          rw [ihb hb, hstep]
        · rw [if_neg hc]
          simp only [Rbnode.toListP]
          rw [ihb hb, hstep]
      · rw [if_neg (by simp [h2])]
        simp only [Rbnode.toListP]
        have hall : ∀ e ∈ a.toListP, lt e.1 k = true := fun e he =>
          h.congr_right (hla e he) (Bool.eq_false_iff.mpr h2) (Bool.eq_false_iff.mpr h1)
        rw [linsert_append_of_all_lt h hall]
        congr 1
        simp [linsert, h1, h2]

theorem insert_toListP {lt : α → α → Bool} (h : IsSWO lt) (t : Rbnode α β)
    (hs : (Rbnode.toListP t).Pairwise (keyLt lt)) (k : α) (v : β) :
    (Rbnode.insert lt t k v).toListP = linsert lt t.toListP k v := by
  rw [Rbnode.insert, toListP_mk_insert_result, ins_toListP h t hs]

theorem insert_pairwise {lt : α → α → Bool} (h : IsSWO lt) (t : Rbnode α β)
    (hs : (Rbnode.toListP t).Pairwise (keyLt lt)) (k : α) (v : β) :
    ((Rbnode.insert lt t k v).toListP).Pairwise (keyLt lt) := by
  rw [insert_toListP h t hs]
  exact linsert_pairwise h hs k v

theorem built_pairwise {lt : α → α → Bool} (h : IsSWO lt) (l : List (α × β)) :
    ((Rbnode.built lt l).toListP).Pairwise (keyLt lt) := by
  suffices haux : ∀ (l : List (α × β)) (s : Rbnode α β),
      (Rbnode.toListP s).Pairwise (keyLt lt) →
      ((l.foldl (fun s e => Rbnode.insert lt s e.1 e.2) s).toListP).Pairwise (keyLt lt) by
    exact haux l Rbnode.leaf (by simp [Rbnode.toListP])
  intro l
  induction l with
  | nil => intro s hs; exact hs
  | cons e es ih =>
    intro s hs
    exact ih _ (insert_pairwise h s hs e.1 e.2)

theorem find_core_step {lt : α → α → Bool} (h : IsSWO lt) {a b : Rbnode α β}
    {ky k' k : α} {vy v : β}
    (hs : (a.toListP ++ (ky, vy) :: b.toListP).Pairwise (keyLt lt))
    (hmem : (k', v) ∈ a.toListP ++ (ky, vy) :: b.toListP)
    (h1 : lt k' k = false) (h2 : lt k k' = false)
    (iha : a.toListP.Pairwise (keyLt lt) → (k', v) ∈ a.toListP →
      Rbnode.find_core lt a k = some (k', v))
    (ihb : b.toListP.Pairwise (keyLt lt) → (k', v) ∈ b.toListP →
      Rbnode.find_core lt b k = some (k', v)) :
    (if lt k ky then Rbnode.find_core lt a k
     else if lt ky k then Rbnode.find_core lt b k
     else some (ky, vy)) = some (k', v) := by
  obtain ⟨ha, hb, hla, hlb⟩ := pairwise_node_decomp hs
  by_cases hk1 : lt k ky = true
  · rw [if_pos hk1]
    have hmema : (k', v) ∈ a.toListP := by
      rcases List.mem_append.mp hmem with h' | h'
      · exact h'
      · rcases List.mem_cons.mp h' with heq | h''
        · have e1 : k' = ky := congrArg Prod.fst heq
          rw [e1] at h2
          rw [h2] at hk1
          simp at hk1
        · have h5 := h.congr_right (hlb _ h'') h1 h2
          rw [h.asym hk1] at h5
          simp at h5
    exact iha ha hmema
  · rw [if_neg (by simp [hk1])]
    have hk1' : lt k ky = false := Bool.eq_false_iff.mpr hk1
    by_cases hk2 : lt ky k = true
    · rw [if_pos hk2]
      have hmemb : (k', v) ∈ b.toListP := by
        rcases List.mem_append.mp hmem with h' | h'
        · have h5 := h.trans _ _ _ (hla _ h') hk2
          rw [h1] at h5
          simp at h5
        · rcases List.mem_cons.mp h' with heq | h''
          · have e1 : k' = ky := congrArg Prod.fst heq
            rw [e1] at h1
            rw [h1] at hk2
            simp at hk2
          · exact h''
      exact ihb hb hmemb
    · rw [if_neg (by simp [hk2])]
      have hk2' : lt ky k = false := Bool.eq_false_iff.mpr hk2
      rcases List.mem_append.mp hmem with h' | h'
      · have h5 := h.congr_right (hla _ h') hk2' hk1'
        rw [h1] at h5
        simp at h5
      · rcases List.mem_cons.mp h' with heq | h''
        · rw [heq]
        · have h5 := h.congr_right (hlb _ h'') h1 h2
          rw [hk2'] at h5
          simp at h5

theorem find_core_of_mem {lt : α → α → Bool} (h : IsSWO lt) (t : Rbnode α β)
    (hs : t.toListP.Pairwise (keyLt lt)) {k' k : α} {v : β}
    (hmem : (k', v) ∈ t.toListP)
    (h1 : lt k' k = false) (h2 : lt k k' = false) :
    Rbnode.find_core lt t k = some (k', v) := by
  induction t with
  | leaf => simp [Rbnode.toListP] at hmem
  | red_node a ky vy b iha ihb =>
    simp only [Rbnode.toListP] at hs hmem
    simp only [Rbnode.find_core]
    exact find_core_step h hs hmem h1 h2 (fun hsa hma => iha hsa hma)
      (fun hsb hmb => ihb hsb hmb)
  | black_node a ky vy b iha ihb =>
    simp only [Rbnode.toListP] at hs hmem
    simp only [Rbnode.find_core]
    exact find_core_step h hs hmem h1 h2 (fun hsa hma => iha hsa hma)
      (fun hsb hmb => ihb hsb hmb)

/-! ### Reduction equations of the rebalancing rotations -/

theorem balance1_red_left (l₁ : Rbnode α β) (x₁ : α) (v₁ : β) (r₁ : Rbnode α β)
    (x : α) (vx : β) (r : Rbnode α β) (y : α) (vy : β) (s : Rbnode α β) :
    Rbnode.balance1 (.red_node l₁ x₁ v₁ r₁) x vx r y vy s
      = .red_node (.black_node l₁ x₁ v₁ r₁) x vx (.black_node r y vy s) := by
  simp [Rbnode.balance1]

theorem balance1_leaf_red (x : α) (vx : β) (l₂ : Rbnode α β) (x₂ : α) (v₂ : β)
    (r₂ : Rbnode α β) (y : α) (vy : β) (s : Rbnode α β) :
    Rbnode.balance1 .leaf x vx (.red_node l₂ x₂ v₂ r₂) y vy s
      = .red_node (.black_node .leaf x vx l₂) x₂ v₂ (.black_node r₂ y vy s) := by
  simp [Rbnode.balance1]

theorem balance1_black_red (l₁ : Rbnode α β) (x₁ : α) (v₁ : β) (r₁ : Rbnode α β)
    (x : α) (vx : β) (l₂ : Rbnode α β) (x₂ : α) (v₂ : β) (r₂ : Rbnode α β)
    (y : α) (vy : β) (s : Rbnode α β) :
    Rbnode.balance1 (.black_node l₁ x₁ v₁ r₁) x vx (.red_node l₂ x₂ v₂ r₂) y vy s
      = .red_node (.black_node (.black_node l₁ x₁ v₁ r₁) x vx l₂) x₂ v₂
          (.black_node r₂ y vy s) := by
  simp [Rbnode.balance1]

theorem balance1_rest {l r : Rbnode α β} (hl : l.get_color ≠ Color.red)
    (hr : r.get_color ≠ Color.red) (x : α) (vx : β) (y : α) (vy : β) (s : Rbnode α β) :
    Rbnode.balance1 l x vx r y vy s = .black_node (.red_node l x vx r) y vy s := by
  cases l with
  | red_node => exact absurd rfl hl
  | leaf =>
    cases r with
    | red_node => exact absurd rfl hr
    | leaf => simp [Rbnode.balance1]
    | black_node => simp [Rbnode.balance1]
  | black_node =>
    cases r with
    | red_node => exact absurd rfl hr
    | leaf => simp [Rbnode.balance1]
    | black_node => simp [Rbnode.balance1]

theorem balance2_red_left (l₁ : Rbnode α β) (x₁ : α) (v₁ : β) (r₁ : Rbnode α β)
    (x : α) (vx : β) (r : Rbnode α β) (y : α) (vy : β) (s : Rbnode α β) :
    Rbnode.balance2 (.red_node l₁ x₁ v₁ r₁) x vx r y vy s
      = .red_node (.black_node s y vy l₁) x₁ v₁ (.black_node r₁ x vx r) := by
  simp [Rbnode.balance2]

theorem balance2_leaf_red (x : α) (vx : β) (l₂ : Rbnode α β) (x₂ : α) (v₂ : β)
    (r₂ : Rbnode α β) (y : α) (vy : β) (s : Rbnode α β) :
    Rbnode.balance2 .leaf x vx (.red_node l₂ x₂ v₂ r₂) y vy s
      = .red_node (.black_node s y vy .leaf) x vx (.black_node l₂ x₂ v₂ r₂) := by
  simp [Rbnode.balance2]

theorem balance2_black_red (l₁ : Rbnode α β) (x₁ : α) (v₁ : β) (r₁ : Rbnode α β)
    (x : α) (vx : β) (l₂ : Rbnode α β) (x₂ : α) (v₂ : β) (r₂ : Rbnode α β)
    (y : α) (vy : β) (s : Rbnode α β) :
    Rbnode.balance2 (.black_node l₁ x₁ v₁ r₁) x vx (.red_node l₂ x₂ v₂ r₂) y vy s
      = .red_node (.black_node s y vy (.black_node l₁ x₁ v₁ r₁)) x vx
          (.black_node l₂ x₂ v₂ r₂) := by
  simp [Rbnode.balance2]

theorem balance2_rest {l r : Rbnode α β} (hl : l.get_color ≠ Color.red)
    (hr : r.get_color ≠ Color.red) (x : α) (vx : β) (y : α) (vy : β) (s : Rbnode α β) :
    Rbnode.balance2 l x vx r y vy s = .black_node s y vy (.red_node l x vx r) := by
  cases l with
  | red_node => exact absurd rfl hl
  | leaf =>
    cases r with
    | red_node => exact absurd rfl hr
    | leaf => simp [Rbnode.balance2]
    | black_node => simp [Rbnode.balance2]
  | black_node =>
    cases r with
    | red_node => exact absurd rfl hr
    | leaf => simp [Rbnode.balance2]
    | black_node => simp [Rbnode.balance2]

/-! ### Preservation of the red-black invariants -/

theorem rbinv_get_color {t : Rbnode α β} {c : Color} {n : Nat} (h : RBInv t c n) :
    t.get_color = c := by
  cases h <;> rfl

theorem balance1_rb {l r s : Rbnode α β} {x y : α} {vx vy : β} {n : Nat}
    (hl : ∃ c, RBInv l c n) (hr : ∃ c, RBInv r c n) (hs : ∃ c, RBInv s c n) :
    ∃ c, RBInv (Rbnode.balance1 l x vx r y vy s) c (n + 1) := by
  obtain ⟨cl, hl⟩ := hl
  obtain ⟨cr, hr⟩ := hr
  obtain ⟨cs, hs⟩ := hs
  cases l with
  | red_node l₁ x₁ v₁ r₁ =>
    cases hl with
    | red h1 h2 =>
      rw [balance1_red_left]
      exact ⟨Color.red, RBInv.red (RBInv.black h1 h2) (RBInv.black hr hs)⟩
  | leaf =>
    cases r with
    | red_node l₂ x₂ v₂ r₂ =>
      cases hr with
      | red h1 h2 =>
        rw [balance1_leaf_red]
        exact ⟨Color.red, RBInv.red (RBInv.black hl h1) (RBInv.black h2 hs)⟩
    | leaf =>
      cases hl
      cases hr
      rw [balance1_rest (by simp [Rbnode.get_color]) (by simp [Rbnode.get_color])]
      exact ⟨Color.black, RBInv.black (RBInv.red RBInv.leaf RBInv.leaf) hs⟩
    | black_node l₂ x₂ v₂ r₂ =>
      cases hl
      cases hr
  | black_node l₁ x₁ v₁ r₁ =>
    cases r with
    | red_node l₂ x₂ v₂ r₂ =>
      cases hr with
      | red h1 h2 =>
        rw [balance1_black_red]
        exact ⟨Color.red, RBInv.red (RBInv.black hl h1) (RBInv.black h2 hs)⟩
    | leaf =>
      cases hr
      cases hl
    | black_node l₂ x₂ v₂ r₂ =>
      cases hl with
      | black ha hb =>
        cases hr with
        | black hc hd =>
          rw [balance1_rest (by simp [Rbnode.get_color]) (by simp [Rbnode.get_color])]
          exact ⟨Color.black,
            RBInv.black (RBInv.red (RBInv.black ha hb) (RBInv.black hc hd)) hs⟩

theorem balance2_rb {l r s : Rbnode α β} {x y : α} {vx vy : β} {n : Nat}
    (hl : ∃ c, RBInv l c n) (hr : ∃ c, RBInv r c n) (hs : ∃ c, RBInv s c n) :
    ∃ c, RBInv (Rbnode.balance2 l x vx r y vy s) c (n + 1) := by
  obtain ⟨cl, hl⟩ := hl
  obtain ⟨cr, hr⟩ := hr
  obtain ⟨cs, hs⟩ := hs
  cases l with
  | red_node l₁ x₁ v₁ r₁ =>
    cases hl with
    | red h1 h2 =>
      rw [balance2_red_left]
      exact ⟨Color.red, RBInv.red (RBInv.black hs h1) (RBInv.black h2 hr)⟩
  | leaf =>
    cases r with
    | red_node l₂ x₂ v₂ r₂ =>
      cases hr with
      | red h1 h2 =>
        rw [balance2_leaf_red]
        exact ⟨Color.red, RBInv.red (RBInv.black hs hl) (RBInv.black h1 h2)⟩
    | leaf =>
      cases hl
      cases hr
      rw [balance2_rest (by simp [Rbnode.get_color]) (by simp [Rbnode.get_color])]
      exact ⟨Color.black, RBInv.black hs (RBInv.red RBInv.leaf RBInv.leaf)⟩
    | black_node l₂ x₂ v₂ r₂ =>
      cases hl
      cases hr
  | black_node l₁ x₁ v₁ r₁ =>
    cases r with
    | red_node l₂ x₂ v₂ r₂ =>
      cases hr with
      | red h1 h2 =>
        cases hl with
        | black ha hb =>
          rw [balance2_black_red]
          exact ⟨Color.red, RBInv.red (RBInv.black hs (RBInv.black ha hb))
            (RBInv.black h1 h2)⟩
    | leaf =>
      cases hr
      cases hl
    | black_node l₂ x₂ v₂ r₂ =>
      cases hl with
      | black ha hb =>
        cases hr with
        | black hc hd =>
          rw [balance2_rest (by simp [Rbnode.get_color]) (by simp [Rbnode.get_color])]
          exact ⟨Color.black,
            RBInv.black hs (RBInv.red (RBInv.black ha hb) (RBInv.black hc hd))⟩

theorem ins_rbinv {lt : α → α → Bool} {t : Rbnode α β} {c : Color} {n : Nat}
    (h : RBInv t c n) (k : α) (v : β) :
    (c = Color.black → ∃ c', RBInv (Rbnode.ins lt t k v) c' n) ∧
    (c = Color.red → ∃ l x vx r, Rbnode.ins lt t k v = Rbnode.red_node l x vx r ∧
      (∃ c₁, RBInv l c₁ n) ∧ (∃ c₂, RBInv r c₂ n)) := by
  induction h with
  | leaf =>
    exact ⟨fun _ => ⟨Color.red, RBInv.red RBInv.leaf RBInv.leaf⟩,
      fun hc => Color.noConfusion hc⟩
  | @red l₀ k₀ v₀ r₀ n₀ hl hr ihl ihr =>
    refine ⟨fun hc => Color.noConfusion hc, fun _ => ?_⟩
    simp only [Rbnode.ins]
    by_cases h1 : lt k k₀ = true
    · rw [if_pos h1]
      obtain ⟨c', hc'⟩ := ihl.1 rfl
      exact ⟨_, k₀, v₀, r₀, rfl, ⟨c', hc'⟩, ⟨Color.black, hr⟩⟩
    · rw [if_neg (by simp [h1])]
      by_cases h2 : lt k₀ k = true
      · rw [if_pos h2]
        obtain ⟨c', hc'⟩ := ihr.1 rfl
        exact ⟨l₀, k₀, v₀, _, rfl, ⟨Color.black, hl⟩, ⟨c', hc'⟩⟩
      · rw [if_neg (by simp [h2])]
        exact ⟨l₀, k, v, r₀, rfl, ⟨Color.black, hl⟩, ⟨Color.black, hr⟩⟩
  | @black l₀ k₀ v₀ r₀ c₁ c₂ n₀ hl hr ihl ihr =>
    refine ⟨fun _ => ?_, fun hc => Color.noConfusion hc⟩
    simp only [Rbnode.ins]
    by_cases h1 : lt k k₀ = true
    · rw [if_pos h1]
      by_cases hred : l₀.get_color = Color.red
      · rw [if_pos hred]
        have hc₁ : c₁ = Color.red := by rw [rbinv_get_color hl] at hred; exact hred
        obtain ⟨l', x', vx', r', heq, hp₁, hp₂⟩ := ihl.2 hc₁
        rw [heq]
        simp only [Rbnode.balance1_node]
        exact balance1_rb hp₁ hp₂ ⟨c₂, hr⟩
      · rw [if_neg hred]
        have hc₁ : c₁ = Color.black := by
          cases c₁ with
          | red => exact absurd (rbinv_get_color hl) hred
          | black => rfl
        obtain ⟨c', hc'⟩ := ihl.1 hc₁
        exact ⟨Color.black, RBInv.black hc' hr⟩
    · rw [if_neg (by simp [h1])]
      by_cases h2 : lt k₀ k = true
      · rw [if_pos h2]
        by_cases hred : r₀.get_color = Color.red
        · rw [if_pos hred]
          have hc₂ : c₂ = Color.red := by rw [rbinv_get_color hr] at hred; exact hred
          obtain ⟨l', x', vx', r', heq, hp₁, hp₂⟩ := ihr.2 hc₂
          rw [heq]
          simp only [Rbnode.balance2_node]
          exact balance2_rb hp₁ hp₂ ⟨c₁, hl⟩
        · rw [if_neg hred]
          have hc₂ : c₂ = Color.black := by
            cases c₂ with
            | red => exact absurd (rbinv_get_color hr) hred
            | black => rfl
          obtain ⟨c', hc'⟩ := ihr.1 hc₂
          exact ⟨Color.black, RBInv.black hl hc'⟩
      · rw [if_neg (by simp [h2])]
        exact ⟨Color.black, RBInv.black hl hr⟩

theorem insert_rbinv {lt : α → α → Bool} {t : Rbnode α β} {c : Color} {n : Nat}
    (h : RBInv t c n) (k : α) (v : β) :
    ∃ c' n', RBInv (Rbnode.insert lt t k v) c' n' := by
  cases c with
  | red =>
    obtain ⟨l', x', vx', r', heq, ⟨ca, ha⟩, ⟨cb, hb⟩⟩ := (ins_rbinv h k v).2 rfl
    refine ⟨Color.black, n + 1, ?_⟩
    rw [Rbnode.insert, heq]
    exact RBInv.black ha hb
  | black =>
    obtain ⟨c', hc'⟩ := (ins_rbinv h k v).1 rfl
    rcases hX : Rbnode.ins lt t k v with _ | ⟨l', x', vx', r'⟩ | ⟨l', x', vx', r'⟩
    · exact ⟨Color.black, 0, by
        rw [Rbnode.insert, hX]
        exact RBInv.leaf⟩
    · rw [hX] at hc'
      cases hc' with
      | red hp₁ hp₂ =>
        exact ⟨Color.black, n + 1, by
          rw [Rbnode.insert, hX]
          exact RBInv.black hp₁ hp₂⟩
    · rw [hX] at hc'
      exact ⟨c', n, by
        rw [Rbnode.insert, hX]
        exact hc'⟩

theorem built_rbinv {lt : α → α → Bool} (l : List (α × β)) :
    ∃ c n, RBInv (Rbnode.built lt l) c n := by
  suffices haux : ∀ (l : List (α × β)) (s : Rbnode α β), (∃ c n, RBInv s c n) →
      ∃ c n, RBInv (l.foldl (fun s e => Rbnode.insert lt s e.1 e.2) s) c n by
    exact haux l Rbnode.leaf ⟨Color.black, 0, RBInv.leaf⟩
  intro l
  induction l with
  | nil => intro s hs; exact hs
  | cons e es ih =>
    intro s hs
    obtain ⟨c, n, hc⟩ := hs
    exact ih _ ((insert_rbinv hc e.1 e.2).imp fun c' h' => h')

theorem rbtree_built_rbinv {lt : α → α → Bool} (l : List α) :
    ∃ c n, RBInv (Rbtree.built lt l) c n := by
  suffices haux : ∀ (l : List α) (s : Rbtree α), (∃ c n, RBInv s c n) →
      ∃ c n, RBInv (l.foldl (fun s k => Rbtree.insert lt s k) s) c n by
    exact haux l Rbnode.leaf ⟨Color.black, 0, RBInv.leaf⟩
  intro l
  induction l with
  | nil => intro s hs; exact hs
  | cons e es ih =>
    intro s hs
    obtain ⟨c, n, hc⟩ := hs
    exact ih _ ((insert_rbinv hc e ()).imp fun c' h' => h')

theorem rbinv_noRedRed {t : Rbnode α β} {c : Color} {n : Nat} (h : RBInv t c n) :
    t.noRedRed = true := by
  induction h with
  | leaf => rfl
  | red hl hr ihl ihr =>
    simp [Rbnode.noRedRed, rbinv_get_color hl, rbinv_get_color hr, ihl, ihr]
  | black hl hr ihl ihr => simp [Rbnode.noRedRed, ihl, ihr]

theorem rbinv_pathBlackCounts {t : Rbnode α β} {c : Color} {n : Nat}
    (h : RBInv t c n) : ∀ x ∈ t.pathBlackCounts, x = n := by
  induction h with
  | leaf => simp [Rbnode.pathBlackCounts]
  | red hl hr ihl ihr =>
    intro x hx
    simp only [Rbnode.pathBlackCounts, List.mem_append] at hx
    rcases hx with hx | hx
    · exact ihl x hx
    · exact ihr x hx
  | black hl hr ihl ihr =>
    intro x hx
    simp only [Rbnode.pathBlackCounts, List.mem_map, List.mem_append] at hx
    obtain ⟨y, hy, rfl⟩ := hx
    rcases hy with hy | hy
    · rw [ihl y hy]
    · rw [ihr y hy]

theorem rbinv_strip {t : Rbnode α β} {c : Color} {n : Nat} (h : RBInv t c n) :
    RBInv t.strip c n := by
  induction h with
  | leaf => exact RBInv.leaf
  | red hl hr ihl ihr => exact RBInv.red ihl ihr
  | black hl hr ihl ihr => exact RBInv.black ihl ihr

/-! ### Shape commutation: values never influence the produced structure -/

theorem strip_get_color (t : Rbnode α β) : t.strip.get_color = t.get_color := by
  cases t <;> rfl

theorem strip_balance1 (l : Rbnode α β) (x : α) (vx : β) (r : Rbnode α β)
    (y : α) (vy : β) (s : Rbnode α β) :
    (Rbnode.balance1 l x vx r y vy s).strip
      = Rbnode.balance1 l.strip x () r.strip y () s.strip := by
  cases l <;> cases r <;> simp [Rbnode.balance1, Rbnode.strip]

theorem strip_balance2 (l : Rbnode α β) (x : α) (vx : β) (r : Rbnode α β)
    (y : α) (vy : β) (s : Rbnode α β) :
    (Rbnode.balance2 l x vx r y vy s).strip
      = Rbnode.balance2 l.strip x () r.strip y () s.strip := by
  cases l <;> cases r <;> simp [Rbnode.balance2, Rbnode.strip]

theorem strip_balance1_node (x : Rbnode α β) (y : α) (vy : β) (s : Rbnode α β) :
    (Rbnode.balance1_node x y vy s).strip
      = Rbnode.balance1_node x.strip y () s.strip := by
  cases x <;> simp [Rbnode.balance1_node, Rbnode.strip, strip_balance1]

theorem strip_balance2_node (x : Rbnode α β) (y : α) (vy : β) (s : Rbnode α β) :
    (Rbnode.balance2_node x y vy s).strip
      = Rbnode.balance2_node x.strip y () s.strip := by
  cases x <;> simp [Rbnode.balance2_node, Rbnode.strip, strip_balance2]

theorem strip_ins {lt : α → α → Bool} (t : Rbnode α β) (k : α) (v : β) :
    (Rbnode.ins lt t k v).strip = Rbnode.ins lt t.strip k () := by
  induction t with
  | leaf => rfl
  | red_node a ky vy b iha ihb =>
    cases h1 : lt k ky with
    | true => simp [Rbnode.ins, Rbnode.strip, h1, iha]
    | false =>
      cases h2 : lt ky k with
      | true => simp [Rbnode.ins, Rbnode.strip, h1, h2, ihb]
      | false => simp [Rbnode.ins, Rbnode.strip, h1, h2]
  | black_node a ky vy b iha ihb =>
    cases h1 : lt k ky with
    | true =>
      cases hc : a.get_color with
      | red =>
        simp [Rbnode.ins, Rbnode.strip, h1, hc, strip_get_color,
          strip_balance1_node, iha]
      | black =>
        simp [Rbnode.ins, Rbnode.strip, h1, hc, strip_get_color, iha]
    | false =>
      cases h2 : lt ky k with
      | true =>
        cases hc : b.get_color with
        | red =>
          simp [Rbnode.ins, Rbnode.strip, h1, h2, hc, strip_get_color,
            strip_balance2_node, ihb]
        | black =>
          simp [Rbnode.ins, Rbnode.strip, h1, h2, hc, strip_get_color, ihb]
      | false => simp [Rbnode.ins, Rbnode.strip, h1, h2]

theorem strip_mk_insert_result (c : Color) (t : Rbnode α β) :
    (Rbnode.mk_insert_result c t).strip = Rbnode.mk_insert_result c t.strip := by
  cases t <;> simp [Rbnode.mk_insert_result, Rbnode.strip]

theorem strip_insert {lt : α → α → Bool} (t : Rbnode α β) (k : α) (v : β) :
    (Rbnode.insert lt t k v).strip = Rbnode.insert lt t.strip k () := by
  rw [Rbnode.insert, Rbnode.insert, strip_mk_insert_result, strip_ins,
    strip_get_color]

theorem strip_unit_id (u : Rbnode α Unit) : u.strip = u := by
  induction u with
  | leaf => rfl
  | red_node a k v b iha ihb => simp [Rbnode.strip, iha, ihb]
  | black_node a k v b iha ihb => simp [Rbnode.strip, iha, ihb]

/-! ### Membership placement in a sorted in-order list -/

theorem mem_left_of_lt {lt : α → α → Bool} (h : IsSWO lt)
    {la lb : List (α × β)} {ky k : α} {vy v : β}
    (hla : ∀ e ∈ la, lt e.1 ky = true) (hlb : ∀ e ∈ lb, lt ky e.1 = true)
    (hmem : (k, v) ∈ la ++ (ky, vy) :: lb) (h1 : lt k ky = true) :
    (k, v) ∈ la := by
  rcases List.mem_append.mp hmem with h' | h'
  · exact h'
  · rcases List.mem_cons.mp h' with heq | h''
    · have e1 : k = ky := congrArg Prod.fst heq
      rw [e1] at h1
      rw [h.irrefl ky] at h1
      simp at h1
    · have h5 := hlb _ h''
      rw [h.asym h1] at h5
      simp at h5

theorem mem_right_of_lt {lt : α → α → Bool} (h : IsSWO lt)
    {la lb : List (α × β)} {ky k : α} {vy v : β}
    (hla : ∀ e ∈ la, lt e.1 ky = true) (hlb : ∀ e ∈ lb, lt ky e.1 = true)
    (hmem : (k, v) ∈ la ++ (ky, vy) :: lb) (h2 : lt ky k = true) :
    (k, v) ∈ lb := by
  rcases List.mem_append.mp hmem with h' | h'
  · have h5 := hla _ h'
    rw [h.asym h2] at h5
    simp at h5
  · rcases List.mem_cons.mp h' with heq | h''
    · have e1 : k = ky := congrArg Prod.fst heq
      rw [e1] at h2
      rw [h.irrefl ky] at h2
      simp at h2
    · exact h''

theorem mem_eq_of_incomp {lt : α → α → Bool} (h : IsSWO lt)
    {la lb : List (α × β)} {ky k : α} {vy v : β}
    (hla : ∀ e ∈ la, lt e.1 ky = true) (hlb : ∀ e ∈ lb, lt ky e.1 = true)
    (hmem : (k, v) ∈ la ++ (ky, vy) :: lb)
    (h1 : lt k ky = false) (h2 : lt ky k = false) :
    k = ky ∧ v = vy := by
  rcases List.mem_append.mp hmem with h' | h'
  · have h5 := hla _ h'
    rw [h1] at h5
    simp at h5
  · rcases List.mem_cons.mp h' with heq | h''
    · exact ⟨congrArg Prod.fst heq, congrArg Prod.snd heq⟩
    · have h5 := hlb _ h''
      rw [h2] at h5
      simp at h5

/-! ### Re-inserting an already stored entry is the identity -/

theorem ins_self {lt : α → α → Bool} (h : IsSWO lt) (s : Rbnode α β)
    (hs : s.toListP.Pairwise (keyLt lt)) (hnr : s.noRedRed = true)
    {k : α} {v : β} (hmem : (k, v) ∈ s.toListP) :
    Rbnode.ins lt s k v = s := by
  induction s with
  | leaf => simp [Rbnode.toListP] at hmem
  | red_node a ky vy b iha ihb =>
    simp only [Rbnode.toListP] at hs hmem
    obtain ⟨ha, hb, hla, hlb⟩ := pairwise_node_decomp hs
    simp only [Rbnode.noRedRed, Bool.and_eq_true, Bool.not_eq_true',
      decide_eq_false_iff_not] at hnr
    obtain ⟨⟨hca, hcb⟩, hna, hnb⟩ := hnr
    simp only [Rbnode.ins]
    by_cases h1 : lt k ky = true
    · rw [if_pos h1, iha ha hna (mem_left_of_lt h hla hlb hmem h1)]
    · rw [if_neg (by simp [h1])]
      have h1' : lt k ky = false := Bool.eq_false_iff.mpr h1
      by_cases h2 : lt ky k = true
      · rw [if_pos h2, ihb hb hnb (mem_right_of_lt h hla hlb hmem h2)]
      · rw [if_neg (by simp [h2])]
        have h2' : lt ky k = false := Bool.eq_false_iff.mpr h2
        obtain ⟨e1, e2⟩ := mem_eq_of_incomp h hla hlb hmem h1' h2'
        rw [e1, e2]
  | black_node a ky vy b iha ihb =>
    simp only [Rbnode.toListP] at hs hmem
    obtain ⟨ha, hb, hla, hlb⟩ := pairwise_node_decomp hs
    simp only [Rbnode.noRedRed, Bool.and_eq_true] at hnr
    obtain ⟨hna, hnb⟩ := hnr
    simp only [Rbnode.ins]
    by_cases h1 : lt k ky = true
    · rw [if_pos h1]
      have hrec := iha ha hna (mem_left_of_lt h hla hlb hmem h1)
      by_cases hc : a.get_color = Color.red
      · rw [if_pos hc, hrec]
        cases a with
        | leaf => exact absurd hc (by simp [Rbnode.get_color])
        | black_node a₁ x vx a₂ => exact absurd hc (by simp [Rbnode.get_color])
        | red_node a₁ x vx a₂ =>
          simp only [Rbnode.noRedRed, Bool.and_eq_true, Bool.not_eq_true',
            decide_eq_false_iff_not] at hna
          obtain ⟨⟨hca₁, hca₂⟩, _, _⟩ := hna
          simp only [Rbnode.balance1_node]
          rw [balance1_rest hca₁ hca₂]
      · rw [if_neg hc, hrec]
    · rw [if_neg (by simp [h1])]
      have h1' : lt k ky = false := Bool.eq_false_iff.mpr h1
      by_cases h2 : lt ky k = true
      · rw [if_pos h2]
        have hrec := ihb hb hnb (mem_right_of_lt h hla hlb hmem h2)
        by_cases hc : b.get_color = Color.red
        · rw [if_pos hc, hrec]
          cases b with
          | leaf => exact absurd hc (by simp [Rbnode.get_color])
          | black_node b₁ x vx b₂ => exact absurd hc (by simp [Rbnode.get_color])
          | red_node b₁ x vx b₂ =>
            simp only [Rbnode.noRedRed, Bool.and_eq_true, Bool.not_eq_true',
              decide_eq_false_iff_not] at hnb
            obtain ⟨⟨hcb₁, hcb₂⟩, _, _⟩ := hnb
            simp only [Rbnode.balance2_node]
            rw [balance2_rest hcb₁ hcb₂]
        · rw [if_neg hc, hrec]
      · rw [if_neg (by simp [h2])]
        have h2' : lt ky k = false := Bool.eq_false_iff.mpr h2
        obtain ⟨e1, e2⟩ := mem_eq_of_incomp h hla hlb hmem h1' h2'
        rw [e1, e2]

/-- A tree is reconstructible from its shape together with its in-order
list of key-value pairs. -/
theorem eq_of_strip_toListP {s₁ s₂ : Rbnode α β}
    (h1 : s₁.strip = s₂.strip) (h2 : s₁.toListP = s₂.toListP) : s₁ = s₂ := by
  induction s₁ generalizing s₂ with
  | leaf =>
    cases s₂ with
    | leaf => rfl
    | red_node a k v b => simp [Rbnode.strip] at h1
    | black_node a k v b => simp [Rbnode.strip] at h1
  | red_node a k v b iha ihb =>
    cases s₂ with
    | leaf => simp [Rbnode.strip] at h1
    | black_node a' k' v' b' => simp [Rbnode.strip] at h1
    | red_node a' k' v' b' =>
      simp only [Rbnode.strip, Rbnode.red_node.injEq] at h1
      obtain ⟨hsa, hk, _, hsb⟩ := h1
      have hlen : (Rbnode.toListP a).length = (Rbnode.toListP a').length := by
        rw [toListP_length, toListP_length, ← size_strip a, ← size_strip a', hsa]
      simp only [Rbnode.toListP] at h2
      obtain ⟨hla, hcons⟩ := List.append_inj h2 hlen
      have hpair' : (k, v) = (k', v') := by
        have := congrArg List.head? hcons
        simpa using this
      have hlb' : Rbnode.toListP b = Rbnode.toListP b' := by
        have := congrArg List.tail hcons
        simpa using this
      have hk2 : k = k' := congrArg Prod.fst hpair'
      have hv2 : v = v' := congrArg Prod.snd hpair'
      rw [iha hsa hla, ihb hsb hlb', hk2, hv2]
  | black_node a k v b iha ihb =>
    cases s₂ with
    | leaf => simp [Rbnode.strip] at h1
    | red_node a' k' v' b' => simp [Rbnode.strip] at h1
    | black_node a' k' v' b' =>
      simp only [Rbnode.strip, Rbnode.black_node.injEq] at h1
      obtain ⟨hsa, hk, _, hsb⟩ := h1
      have hlen : (Rbnode.toListP a).length = (Rbnode.toListP a').length := by
        rw [toListP_length, toListP_length, ← size_strip a, ← size_strip a', hsa]
      simp only [Rbnode.toListP] at h2
      obtain ⟨hla, hcons⟩ := List.append_inj h2 hlen
      have hpair' : (k, v) = (k', v') := by
        have := congrArg List.head? hcons
        simpa using this
      have hlb' : Rbnode.toListP b = Rbnode.toListP b' := by
        have := congrArg List.tail hcons
        simpa using this
      have hk2 : k = k' := congrArg Prod.fst hpair'
      have hv2 : v = v' := congrArg Prod.snd hpair'
      rw [iha hsa hla, ihb hsb hlb', hk2, hv2]

/-! ### Insertion results are black-rooted -/

theorem mk_insert_result_get_color (c : Color) (t : Rbnode α β) :
    (Rbnode.mk_insert_result c t).get_color = Color.black := by
  cases t <;> rfl

theorem mk_insert_result_of_black {t : Rbnode α β} (h : t.get_color = Color.black)
    (c : Color) : Rbnode.mk_insert_result c t = t := by
  cases t with
  | leaf => rfl
  | red_node a k v b => exact absurd h (by simp [Rbnode.get_color])
  | black_node a k v b => rfl

theorem rbtree_built_pairwise {lt : α → α → Bool} (h : IsSWO lt) (ks : List α) :
    ((Rbtree.built lt ks).toListP).Pairwise (keyLt lt) := by
  suffices haux : ∀ (l : List α) (s : Rbtree α),
      (Rbnode.toListP s).Pairwise (keyLt lt) →
      ((l.foldl (fun s k => Rbtree.insert lt s k) s).toListP).Pairwise (keyLt lt) by
    exact haux ks Rbnode.leaf (by simp [Rbnode.toListP])
  intro l
  induction l with
  | nil => intro s hs; exact hs
  | cons e es ih =>
    intro s hs
    exact ih _ (insert_pairwise h s hs e ())

/-- C1: for an arbitrary tree the claim fails: under the strict weak
ordering `natLtB` and a tree that a sequence of inserts cannot produce
(its keys are not search-ordered), inserting key `1` and then looking it
up finds nothing at all. -/
theorem rbtree_insert_find_arbitrary_cex :
    IsSWO natLtB ∧
    Rbnode.find_core natLtB
      (Rbnode.insert natLtB
        (Rbnode.black_node Rbnode.leaf 0 10
          (Rbnode.red_node (Rbnode.red_node Rbnode.leaf 2 20 Rbnode.leaf) 0 30
            Rbnode.leaf))
        1 99) 1 ≠ some (1, 99) :=
  ⟨natLtB_swo, by decide⟩

/-- C1 (amended to trees reachable by insertions): for every tree built
from the empty tree by a sequence of inserts under a strict weak
ordering, `find_core` after `insert` returns exactly the inserted
key-value pair, so `find(insert(t,k,v), k) = Some(v)`. -/
theorem rbtree_insert_find_built {lt : α → α → Bool} (h : IsSWO lt)
    (l : List (α × β)) (t : Rbnode α β) (ht : t = Rbnode.built lt l)
    (k : α) (v : β) :
    Rbnode.find_core lt (Rbnode.insert lt t k v) k = some (k, v) := by
  subst ht
  have hsorted := built_pairwise h l
  have hmem : (k, v) ∈ (Rbnode.insert lt (Rbnode.built lt l) k v).toListP := by
    rw [insert_toListP h _ hsorted]
    exact linsert_mem _ _ _
  exact find_core_of_mem h _ (insert_pairwise h _ hsorted k v) hmem
    (h.irrefl k) (h.irrefl k)

/-- C1 witness: the amended theorem at a concrete input. -/
theorem rbtree_insert_find_built_witness :
    IsSWO natLtB ∧
    Rbnode.find_core natLtB
      (Rbnode.insert natLtB (Rbnode.built natLtB [(2, 5), (0, 7)]) 1 9) 1
      = some (1, 9) :=
  ⟨natLtB_swo, rbtree_insert_find_built natLtB_swo [(2, 5), (0, 7)] _ rfl 1 9⟩

/-- C2: every tree built from the empty tree by a sequence of inserts
with a strict-weak-ordering comparator has no red node with a red child
and the same number of black nodes on every root-to-leaf path. -/
theorem rbtree_insert_preserves_invariants {lt : α → α → Bool} (h : IsSWO lt)
    (ks : List α) (t : Rbtree α) (ht : t = Rbtree.built lt ks) :
    t.noRedRed = true ∧
      ∀ x ∈ t.pathBlackCounts, ∀ y ∈ t.pathBlackCounts, x = y := by
  subst ht
  obtain ⟨c, n, hrb⟩ := @rbtree_built_rbinv _ lt ks
  refine ⟨rbinv_noRedRed hrb, fun x hx y hy => ?_⟩
  rw [rbinv_pathBlackCounts hrb x hx, rbinv_pathBlackCounts hrb y hy]

/-- C2 witness: the invariants at the spec's own insertion scenario. -/
theorem rbtree_insert_preserves_invariants_witness :
    IsSWO natLtB ∧
    ((Rbtree.built natLtB [5, 3, 8, 1, 4, 7, 9]).noRedRed = true ∧
      ∀ x ∈ (Rbtree.built natLtB [5, 3, 8, 1, 4, 7, 9]).pathBlackCounts,
        ∀ y ∈ (Rbtree.built natLtB [5, 3, 8, 1, 4, 7, 9]).pathBlackCounts, x = y) :=
  ⟨natLtB_swo,
    rbtree_insert_preserves_invariants natLtB_swo [5, 3, 8, 1, 4, 7, 9] _ rfl⟩

/-- C3: for every tree built by sequential inserts the `to_list` output
is the reverse fold into cons and is strictly ascending under the
comparator. -/
theorem rbtree_to_list_ascending {lt : α → α → Bool} (h : IsSWO lt)
    (ks : List α) (t : Rbtree α) (ht : t = Rbtree.built lt ks) :
    Rbtree.to_list t = Rbtree.to_list_aux t [] ∧
      (Rbtree.to_list t).Pairwise (fun a b => lt a b = true) := by
  subst ht
  refine ⟨rfl, ?_⟩
  rw [to_list_eq]
  exact List.Pairwise.map _ (fun a b hab => hab) (rbtree_built_pairwise h ks)

/-- C3 witness: the spec's scenario, inserting [5,3,8,1,4,7,9]. -/
theorem rbtree_to_list_ascending_witness :
    IsSWO natLtB ∧
    (Rbtree.to_list (Rbtree.built natLtB [5, 3, 8, 1, 4, 7, 9])
        = Rbtree.to_list_aux (Rbtree.built natLtB [5, 3, 8, 1, 4, 7, 9]) [] ∧
      (Rbtree.to_list (Rbtree.built natLtB [5, 3, 8, 1, 4, 7, 9])).Pairwise
        (fun a b => natLtB a b = true)) :=
  ⟨natLtB_swo, rbtree_to_list_ascending natLtB_swo [5, 3, 8, 1, 4, 7, 9] _ rfl⟩

/-- C4: on an arbitrary tree the shape claim fails: with the strict weak
ordering `natLtB` and a (non-search-ordered) tree holding key 0 twice,
inserting key 1 twice produces a different shape than inserting it
once — the erased-value shapes (`strip`) differ, not merely the stored
values. -/
theorem rbtree_insert_replace_arbitrary_cex :
    IsSWO natLtB ∧
    (Rbnode.insert natLtB
        (Rbnode.insert natLtB
          (Rbnode.red_node Rbnode.leaf 0 10
            (Rbnode.red_node Rbnode.leaf 0 20 Rbnode.leaf)) 1 30) 1 40).strip ≠
      (Rbnode.insert natLtB
        (Rbnode.red_node Rbnode.leaf 0 10
          (Rbnode.red_node Rbnode.leaf 0 20 Rbnode.leaf)) 1 40).strip :=
  ⟨natLtB_swo, by decide⟩

/-- C4 (amended to trees reachable by insertions): for every tree built
from the empty tree by inserts under a strict weak ordering, inserting
`k` with `v₁` and then `k` with `v₂` gives exactly the tree obtained by
inserting `k` with `v₂` once: the second insert replaces the stored
value in place, with unchanged colors and structure. -/
theorem rbtree_insert_replace_built {lt : α → α → Bool} (h : IsSWO lt)
    (l : List (α × β)) (t : Rbnode α β) (ht : t = Rbnode.built lt l)
    (k : α) (v₁ v₂ : β) :
    Rbnode.insert lt (Rbnode.insert lt t k v₁) k v₂ = Rbnode.insert lt t k v₂ := by
  subst ht
  have hsorted := built_pairwise h l
  apply eq_of_strip_toListP
  · rw [strip_insert, strip_insert, strip_insert]
    obtain ⟨c, n, hrb⟩ := @built_rbinv _ _ lt l
    have hrbu := rbinv_strip hrb
    have husort : ((Rbnode.built lt l).strip.toListP).Pairwise (keyLt lt) := by
      rw [toListP_strip]
      exact List.Pairwise.map _ (fun a b hab => hab) hsorted
    obtain ⟨c', n', hrbS⟩ := insert_rbinv hrbu k ()
    have hS1sorted := insert_pairwise h _ husort k ()
    have hmem : (k, ()) ∈
        (Rbnode.insert lt (Rbnode.built lt l).strip k ()).toListP := by
      rw [insert_toListP h _ husort]
      exact linsert_mem _ _ _
    have hid := ins_self h _ hS1sorted (rbinv_noRedRed hrbS) hmem
    have hblack : (Rbnode.insert lt (Rbnode.built lt l).strip k ()).get_color
        = Color.black := mk_insert_result_get_color _ _
    calc Rbnode.insert lt (Rbnode.insert lt (Rbnode.built lt l).strip k ()) k ()
        = Rbnode.mk_insert_result
            (Rbnode.insert lt (Rbnode.built lt l).strip k ()).get_color
            (Rbnode.ins lt (Rbnode.insert lt (Rbnode.built lt l).strip k ()) k ())
          := rfl
      _ = Rbnode.mk_insert_result
            (Rbnode.insert lt (Rbnode.built lt l).strip k ()).get_color
            (Rbnode.insert lt (Rbnode.built lt l).strip k ()) := by rw [hid]
      _ = Rbnode.insert lt (Rbnode.built lt l).strip k ()
          := mk_insert_result_of_black hblack _
  · rw [insert_toListP h _ (insert_pairwise h _ hsorted k v₁),
      insert_toListP h _ hsorted, insert_toListP h _ hsorted, linsert_twice h]

/-- C4 witness: the amended theorem at a concrete input. -/
theorem rbtree_insert_replace_built_witness :
    IsSWO natLtB ∧
    Rbnode.insert natLtB
        (Rbnode.insert natLtB (Rbnode.built natLtB [(2, 5), (0, 7)]) 2 8) 2 9
      = Rbnode.insert natLtB (Rbnode.built natLtB [(2, 5), (0, 7)]) 2 9 :=
  ⟨natLtB_swo, rbtree_insert_replace_built natLtB_swo [(2, 5), (0, 7)] _ rfl 2 8 9⟩

/-! ### Universal and existential predicate evaluation -/

theorem all_iff_toListP (p : α → Bool) (t : Rbnode α β) :
    Rbtree.all p t = true ↔ ∀ e ∈ t.toListP, p e.1 = true := by
  induction t with
  | leaf => simp [Rbtree.all, Rbnode.toListP]
  | red_node a k v b iha ihb =>
    simp only [Rbtree.all, Bool.and_eq_true, iha, ihb, Rbnode.toListP,
      List.mem_append, List.mem_cons]
    constructor
    · rintro ⟨hp, hA, hB⟩ e he
      rcases he with he | he | he
      · exact hA e he
      · rw [he]; exact hp
      · exact hB e he
    · intro hall
      exact ⟨hall (k, v) (Or.inr (Or.inl rfl)),
        fun e he => hall e (Or.inl he),
        fun e he => hall e (Or.inr (Or.inr he))⟩
  | black_node a k v b iha ihb =>
    simp only [Rbtree.all, Bool.and_eq_true, iha, ihb, Rbnode.toListP,
      List.mem_append, List.mem_cons]
    constructor
    · rintro ⟨hp, hA, hB⟩ e he
      rcases he with he | he | he
      · exact hA e he
      · rw [he]; exact hp
      · exact hB e he
    · intro hall
      exact ⟨hall (k, v) (Or.inr (Or.inl rfl)),
        fun e he => hall e (Or.inl he),
        fun e he => hall e (Or.inr (Or.inr he))⟩

theorem any_iff_toListP (p : α → Bool) (t : Rbnode α β) :
    Rbtree.any p t = true ↔ ∃ e ∈ t.toListP, p e.1 = true := by
  induction t with
  | leaf => simp [Rbtree.any, Rbnode.toListP]
  | red_node a k v b iha ihb =>
    simp only [Rbtree.any, Bool.or_eq_true, iha, ihb, Rbnode.toListP,
      List.mem_append, List.mem_cons]
    constructor
    · rintro (hp | ⟨e, he, hpe⟩ | ⟨e, he, hpe⟩)
      · exact ⟨(k, v), Or.inr (Or.inl rfl), hp⟩
      · exact ⟨e, Or.inl he, hpe⟩
      · exact ⟨e, Or.inr (Or.inr he), hpe⟩
    · rintro ⟨e, he | he | he, hpe⟩
      · exact Or.inr (Or.inl ⟨e, he, hpe⟩)
      · rw [he] at hpe; exact Or.inl hpe
      · exact Or.inr (Or.inr ⟨e, he, hpe⟩)
  | black_node a k v b iha ihb =>
    simp only [Rbtree.any, Bool.or_eq_true, iha, ihb, Rbnode.toListP,
      List.mem_append, List.mem_cons]
    constructor
    · rintro (hp | ⟨e, he, hpe⟩ | ⟨e, he, hpe⟩)
      · exact ⟨(k, v), Or.inr (Or.inl rfl), hp⟩
      · exact ⟨e, Or.inl he, hpe⟩
      · exact ⟨e, Or.inr (Or.inr he), hpe⟩
    · rintro ⟨e, he | he | he, hpe⟩
      · exact Or.inr (Or.inl ⟨e, he, hpe⟩)
      · rw [he] at hpe; exact Or.inl hpe
      · exact Or.inr (Or.inr ⟨e, he, hpe⟩)

theorem mem_to_list_iff (t : Rbnode α β) (k : α) :
    k ∈ Rbtree.to_list t ↔ ∃ v, (k, v) ∈ t.toListP := by
  rw [to_list_eq]
  constructor
  · intro hk
    obtain ⟨e, he, rfl⟩ := List.mem_map.mp hk
    exact ⟨e.2, he⟩
  · rintro ⟨v, hv⟩
    exact List.mem_map.mpr ⟨(k, v), hv, rfl⟩

/-- C7: `subset(t1, t2)` is true exactly when every element of `t1` is
found, by `find` under the comparator, in `t2`. -/
theorem rbtree_subset_iff_find (lt : α → α → Bool) (t₁ t₂ : Rbtree α) :
    Rbtree.subset lt t₁ t₂ = true ↔
      ∀ k ∈ Rbtree.to_list t₁, (Rbtree.find lt t₂ k).isSome = true := by
  rw [Rbtree.subset, all_iff_toListP]
  constructor
  · intro h k hk
    obtain ⟨v, hv⟩ := (mem_to_list_iff t₁ k).mp hk
    exact h (k, v) hv
  · intro h e he
    exact h e.1 ((mem_to_list_iff t₁ e.1).mpr ⟨e.2, he⟩)

/-- C8 counterexample: the short-circuit does not follow the in-order
sequence.  On the tree with in-order elements [1,2,3] and the predicate
`3 ≤ k`, the first failing in-order element is 1, so the claimed
evaluation visits only [1]; the code tests the root key first and stops
there, visiting [2]. -/
theorem rbtree_all_visit_order_cex :
    Rbtree.allVisits (fun k => decide (3 ≤ k))
        (Rbnode.black_node (Rbnode.red_node Rbnode.leaf 1 () Rbnode.leaf) 2 ()
          (Rbnode.red_node Rbnode.leaf 3 () Rbnode.leaf)) ≠
      inorderStopVisits (fun k => decide (3 ≤ k))
        (Rbtree.to_list
          (Rbnode.black_node (Rbnode.red_node Rbnode.leaf 1 () Rbnode.leaf) 2 ()
            (Rbnode.red_node Rbnode.leaf 3 () Rbnode.leaf))) := by
  decide

/-- C8 (amended): `all` is true iff the predicate holds of every element
of the in-order traversal, and `any` iff it holds of some element; the
evaluation short-circuits, but in node-left-right visit order (the node
key is tested before the left subtree), not in in-order position. -/
theorem rbtree_all_any_iff (p : α → Bool) (t : Rbnode α β) :
    (Rbtree.all p t = true ↔ ∀ k ∈ Rbtree.to_list t, p k = true) ∧
    (Rbtree.any p t = true ↔ ∃ k ∈ Rbtree.to_list t, p k = true) := by
  constructor
  · rw [all_iff_toListP]
    constructor
    · intro h k hk
      obtain ⟨v, hv⟩ := (mem_to_list_iff t k).mp hk
      exact h (k, v) hv
    · intro h e he
      exact h e.1 ((mem_to_list_iff t e.1).mpr ⟨e.2, he⟩)
  · rw [any_iff_toListP]
    constructor
    · rintro ⟨e, he, hpe⟩
      exact ⟨e.1, (mem_to_list_iff t e.1).mpr ⟨e.2, he⟩, hpe⟩
    · rintro ⟨k, hk, hpk⟩
      obtain ⟨v, hv⟩ := (mem_to_list_iff t k).mp hk
      exact ⟨(k, v), hv, hpk⟩

/-- C9: the bounded fixpoint combinator returns the base case at fuel 0
and otherwise applies the step function to the recursive continuation
with one unit of fuel less; it is total by structural recursion on the
fuel. -/
theorem bfix_equations (base : α → β) (step : (α → β) → α → β) (n : Nat) (x : α) :
    bfix base step 0 x = base x ∧
      bfix base step (n + 1) x = step (bfix base step n) x :=
  ⟨rfl, rfl⟩

/-! ### The backward lemma index: ordering and error behaviour -/

theorem queue_insert_subset (pf : BackwardLemma → Nat) {l : List BackwardLemma}
    {x z : BackwardLemma} (hz : z ∈ queue_insert pf l x) : z ∈ l ∨ z = x := by
  induction l with
  | nil => simp [queue_insert] at hz; simp [hz]
  | cons y ys ih =>
    by_cases h : pf y < pf x
    · simp only [queue_insert, if_pos h, List.mem_cons] at hz
      rcases hz with hz | hz | hz
      · simp [hz]
      · simp [hz]
      · simp [hz]
    · simp only [queue_insert, if_neg h, List.mem_cons] at hz
      rcases hz with hz | hz
      · simp [hz]
      · rcases ih hz with h' | h' <;> simp [h']

theorem queue_insert_pairwise (pf : BackwardLemma → Nat) {l : List BackwardLemma}
    (hs : l.Pairwise (fun a b => pf b ≤ pf a)) (x : BackwardLemma) :
    (queue_insert pf l x).Pairwise (fun a b => pf b ≤ pf a) := by
  induction l with
  | nil => simp [queue_insert]
  | cons y ys ih =>
    rw [List.pairwise_cons] at hs
    obtain ⟨hy, hys⟩ := hs
    by_cases h : pf y < pf x
    · rw [queue_insert, if_pos h, List.pairwise_cons]
      refine ⟨?_, List.Pairwise.cons hy hys⟩
      intro z hz
      rcases List.mem_cons.mp hz with rfl | hz'
      · exact Nat.le_of_lt h
      · exact Nat.le_trans (hy z hz') (Nat.le_of_lt h)
    · rw [queue_insert, if_neg h, List.pairwise_cons]
      refine ⟨?_, ih hys⟩
      intro z hz
      rcases queue_insert_subset pf hz with hz' | rfl
      · exact hy z hz'
      · exact Nat.le_of_not_lt h

theorem index_find_cons (e : BExpr × List BackwardLemma) (es : BackwardIndex)
    (hd : BExpr) :
    index_find (e :: es) hd = if e.1 = hd then e.2 else index_find es hd := by
  by_cases h : e.1 = hd
  · rw [if_pos h]
    unfold index_find
    rw [List.find?_cons_of_pos _ (by simp [h])]
  · rw [if_neg h]
    unfold index_find
    rw [List.find?_cons_of_neg _ (by simp [h])]

theorem index_find_insert (pf : BackwardLemma → Nat) (idx : BackwardIndex)
    (hd : BExpr) (x : BackwardLemma) (hd' : BExpr) :
    index_find (index_insert pf idx hd x) hd' =
      if hd' = hd then queue_insert pf (index_find idx hd) x
      else index_find idx hd' := by
  induction idx with
  | nil =>
    by_cases h : hd' = hd
    · rw [if_pos h]
      show index_find [(hd, [x])] hd' = _
      rw [index_find_cons, if_pos h.symm]
      rfl
    · rw [if_neg h]
      show index_find [(hd, [x])] hd' = index_find [] hd'
      rw [index_find_cons, if_neg (fun he => h he.symm)]
  | cons e es ih =>
    show index_find (if e.1 = hd then (e.1, queue_insert pf e.2 x) :: es
      else e :: index_insert pf es hd x) hd' = _
    by_cases he : e.1 = hd
    · rw [if_pos he]
      by_cases h2 : hd' = hd
      · have h3 : e.1 = hd' := he.trans h2.symm
        simp [index_find_cons, he, h2, h3]
      · have h3 : ¬(e.1 = hd') := fun hc => h2 (hc.symm.trans he)
        have h4 : ¬(hd = hd') := fun hc => h2 hc.symm
        simp [index_find_cons, he, h2, h3, h4]
    · rw [if_neg he]
      by_cases h3 : e.1 = hd'
      · have h2 : ¬(hd' = hd) := fun hc => he (h3.trans hc)
        simp [index_find_cons, he, h2, h3]
      · simp [index_find_cons, he, h3, ih]

theorem index_insert_sorted (pf : BackwardLemma → Nat) {idx : BackwardIndex}
    (hs : ∀ hd, (index_find idx hd).Pairwise (fun a b => pf b ≤ pf a))
    (hd : BExpr) (x : BackwardLemma) :
    ∀ hd', (index_find (index_insert pf idx hd x) hd').Pairwise
      (fun a b => pf b ≤ pf a) := by
  intro hd'
  rw [index_find_insert]
  by_cases h : hd' = hd
  · rw [if_pos h]
    exact queue_insert_pairwise pf (hs hd) x
  · rw [if_neg h]
    exact hs hd'

theorem backward_index_build_sorted_aux (prios : Nat → Option Nat) :
    ∀ (ds : List BDecl) (acc : BackwardIndex × List Nat),
      (∀ hd, (index_find acc.1 hd).Pairwise
        (fun a b => backward_lemma_prio_fn prios b ≤ backward_lemma_prio_fn prios a)) →
      ∀ hd, (index_find
          (ds.foldl (fun acc d =>
            match get_backward_target d.type with
            | some (.const n) =>
                (index_insert (backward_lemma_prio_fn prios) acc.1 (.const n)
                  (.global d.name), acc.2)
            | _ => (acc.1, acc.2 ++ [d.name])) acc).1 hd).Pairwise
        (fun a b => backward_lemma_prio_fn prios b ≤ backward_lemma_prio_fn prios a) := by
  intro ds
  induction ds with
  | nil => intro acc hacc; exact hacc
  | cons d ds ih =>
    intro acc hacc
    rw [List.foldl_cons]
    apply ih
    rcases hgt : get_backward_target d.type with _ | e
    · simpa [hgt] using hacc
    · cases e with
      | const n =>
        simp only [hgt]
        exact index_insert_sorted _ hacc _ _
      | fvar n => simpa [hgt] using hacc
      | sort => simpa [hgt] using hacc
      | app f a => simpa [hgt] using hacc
      | pi d2 b2 => simpa [hgt] using hacc

theorem backward_index_locals_sorted_aux (prios : Nat → Option Nat) :
    ∀ (ls : List (Nat × BExpr)) (idx : BackwardIndex),
      (∀ hd, (index_find idx hd).Pairwise
        (fun a b => backward_lemma_prio_fn prios b ≤ backward_lemma_prio_fn prios a)) →
      ∀ hd, (index_find
          (ls.foldl (fun acc e => (backward_index_insert prios acc e.1 e.2).1) idx)
          hd).Pairwise
        (fun a b => backward_lemma_prio_fn prios b ≤ backward_lemma_prio_fn prios a) := by
  intro ls
  induction ls with
  | nil => intro idx hidx; exact hidx
  | cons e es ih =>
    intro idx hidx
    rw [List.foldl_cons]
    apply ih
    rcases hgt : get_backward_target e.2 with _ | tgt
    · simpa [backward_index_insert, hgt] using hidx
    · simp only [backward_index_insert, hgt]
      exact index_insert_sorted _ hidx _ _

/-- C5: every bucket of the index — built from the attribute-carrying
declarations and extended with any sequence of local hypotheses — is in
descending order of `backward_lemma_prio_fn` (explicit attribute
priority for a global lemma when present, the default priority
otherwise, and always the default priority for a local hypothesis), and
on the concrete scenario with priorities 10 and 5 for head `const 7`,
`find` returns the priority-10 lemma before the priority-5 one. -/
theorem backward_index_priority_order (prios : Nat → Option Nat)
    (decls : List BDecl) (locals : List (Nat × BExpr)) (hd : BExpr) :
    (index_find
        (locals.foldl (fun acc e => (backward_index_insert prios acc e.1 e.2).1)
          (backward_index_build prios decls).1) hd).Pairwise
      (fun a b => backward_lemma_prio_fn prios b ≤ backward_lemma_prio_fn prios a)
    ∧ (∀ hid hty, backward_lemma_prio_fn prios (.hyp hid hty) = default_priority)
    ∧ index_find
        (backward_index_build
          (fun n => if n = 1 then some 10 else if n = 2 then some 5 else none)
          [⟨1, .app (.const 7) .sort⟩, ⟨2, .const 7⟩]).1 (.const 7)
        = [.global 1, .global 2] := by
  refine ⟨?_, fun hid hty => rfl, by decide⟩
  apply backward_index_locals_sorted_aux
  apply backward_index_build_sorted_aux
  intro hd'
  simp [index_find]

/-- C6: a declaration whose conclusion head is not a constant is a hard
error at attribute-registration time, while index construction merely
records a diagnostic trace for each such declaration (in processing
order, i.e. over the reversed list) and continues indexing the rest. -/
theorem backward_attr_error_vs_build_discard (ty : BExpr)
    (prios : Nat → Option Nat) (decls : List BDecl) :
    ((∃ n, get_backward_target ty = some (BExpr.const n)) ↔
      check_intro_attr ty = Except.ok ())
    ∧ ((¬∃ n, get_backward_target ty = some (BExpr.const n)) ↔
      check_intro_attr ty = Except.error
        "invalid intro attribute, head symbol of resulting type must be a constant")
    ∧ (backward_index_build prios decls).2
        = (decls.reverse.filter
            (fun d => match get_backward_target d.type with
              | some (BExpr.const _) => false
              | _ => true)).map BDecl.name := by
  have haux : ∀ (ds : List BDecl) (acc : BackwardIndex × List Nat),
      (ds.foldl (fun acc d =>
        match get_backward_target d.type with
        | some (.const n) =>
            (index_insert (backward_lemma_prio_fn prios) acc.1 (.const n)
              (.global d.name), acc.2)
        | _ => (acc.1, acc.2 ++ [d.name])) acc).2
      = acc.2 ++ (ds.filter
          (fun d => match get_backward_target d.type with
            | some (BExpr.const _) => false
            | _ => true)).map BDecl.name := by
    intro ds
    induction ds with
    | nil => intro acc; simp
    | cons d ds ih =>
      intro acc
      rw [List.foldl_cons]
      rcases hgt : get_backward_target d.type with _ | e
      · simp [hgt, ih, List.filter_cons]
      · cases e <;> simp [hgt, ih, List.filter_cons]
  refine ⟨?_, ?_, haux decls.reverse ([], [])⟩
  · rcases hgt : get_backward_target ty with _ | e
    · simp [check_intro_attr, hgt]
    · cases e <;> simp [check_intro_attr, hgt]
  · rcases hgt : get_backward_target ty with _ | e
    · simp [check_intro_attr, hgt]
    · cases e <;> simp [check_intro_attr, hgt]

/-- C10: when the head of a local hypothesis's type cannot be determined
(neither a constant nor a local free variable), `insert` and `erase`
return the index unchanged with no trace output, whereas index
construction does trace such a declaration. -/
theorem backward_index_silent_skip (prios : Nat → Option Nat)
    (idx : BackwardIndex) (hid : Nat) (hty : BExpr)
    (h : get_backward_target hty = none) :
    backward_index_insert prios idx hid hty = (idx, []) ∧
    backward_index_erase idx hid hty = (idx, []) ∧
    ∀ dname, (backward_index_build prios [⟨dname, hty⟩]).2 = [dname] := by
  refine ⟨?_, ?_, ?_⟩
  · simp [backward_index_insert, h]
  · simp [backward_index_erase, h]
  · intro dname
    simp [backward_index_build, h]

/-- C10 witness: a sort-headed hypothesis type at concrete inputs. -/
theorem backward_index_silent_skip_witness :
    get_backward_target BExpr.sort = none ∧
    backward_index_insert (fun _ => none) [] 0 BExpr.sort = ([], []) ∧
    backward_index_erase [] 0 BExpr.sort = ([], []) ∧
    (backward_index_build (fun _ => none) [⟨5, BExpr.sort⟩]).2 = [5] := by
  have h := backward_index_silent_skip (fun _ => none) [] 0 BExpr.sort rfl
  exact ⟨rfl, h.1, h.2.1, h.2.2 5⟩
